import Mathlib

/-
  Verification development for a small in-memory RDBMS
  (storage/table + hash index + condition evaluator + query planner +
  query executor).

  The definitions below are a shallow embedding of the Python sources:
    - rdbms/storage/types.py      (DataType, Column, validation)
    - rdbms/utils/validators.py   (validate_value_for_type)
    - rdbms/storage/index.py      (HashIndex)
    - rdbms/storage/table.py      (Table: insert/update/delete/index upkeep)
    - rdbms/parser/ast.py         (predicate AST)
    - rdbms/utils/row_utils.py    (get_column_value, project_columns)
    - rdbms/executor/evaluator.py (ConditionEvaluator)
    - rdbms/executor/planner.py   (QueryPlanner)
    - rdbms/executor/executor.py  (SELECT/UPDATE/DELETE paths)

  Modelling conventions:
  * Python runtime values appearing in rows are modelled by `Value`
    (ints, floats, strings, booleans, None).  Floats are modelled as
    rationals: every float literal that the engine stores is a binary
    rational, and the engine never does float arithmetic, only
    comparisons (NaN never arises in this model).
  * Python `==` on these values equates numbers across int/float/bool
    (`1 == 1.0 == True`) and is captured by `keyOf`, the canonical key
    of a value; `pyEq a b` is `keyOf a = keyOf b`.  Python dicts hash
    with the same equivalence, so a hash index is modelled as a total
    map from canonical keys to lists of row ids.
  * Mutating methods are translated to pure functions
    `Table -> ... -> Except RdbmsError A × Table` whose returned table
    reflects exactly the mutations performed up to the point of an
    exception: every `throw` in the Python source occurs at a program
    point whose accumulated state is the table returned in the error
    case of the translation.  So atomicity statements about the
    translation are statements about where the source mutates state.
  * Rows are dicts column -> value plus an internal `_row_id`; the model
    keeps the `_row_id` in a separate structure field `rid`, and the
    columns in an association list `fields` (Python dicts preserve
    insertion order, so an ordered association list is exact).
-/

namespace RdbmsModel

/-! ## Values and Python equality -/

/-- Runtime values stored in rows: Python int, float, str, bool, None.
    Floats are modelled as rationals (see header comment). -/
inductive Value where
  | vNull : Value
  | vInt (n : Int) : Value
  | vFloat (q : Rat) : Value
  | vStr (s : String) : Value
  | vBool (b : Bool) : Value
  deriving DecidableEq, Repr

/-- Canonical key of a value under Python `==`/`hash`: numbers (int,
    float, bool) collapse to their rational value, strings and None are
    their own classes. -/
inductive VKey where
  | num (q : Rat) : VKey
  | str (s : String) : VKey
  | null : VKey
  deriving DecidableEq, Repr

/-- `keyOf` sends a value to its Python-equality class. -/
def keyOf : Value → VKey
  | .vNull => .null
  | .vInt n => .num (n : Rat)
  | .vFloat q => .num q
  | .vStr s => .str s
  | .vBool b => .num (if b then 1 else 0)

/-- Python `==` on stored values. -/
def pyEq (a b : Value) : Bool := keyOf a = keyOf b

/-- Python `<` on stored values: numbers compare numerically, strings
    lexicographically, any other combination raises `TypeError`
    (modelled as `none`; None also raises in Python 3). -/
def pyLt (a b : Value) : Option Bool :=
  match keyOf a, keyOf b with
  | .num p, .num q => some (decide (p < q))
  | .str s, .str t => some (decide (s < t))
  | _, _ => none

/-- Python `<=`, same domain as `pyLt`. -/
def pyLe (a b : Value) : Option Bool :=
  match keyOf a, keyOf b with
  | .num p, .num q => some (decide (p ≤ q))
  | .str s, .str t => some (decide (s ≤ t))
  | _, _ => none

/-! ## Error taxonomy (rdbms/utils/exceptions.py) -/

/-- The engine's exception types (plus Python's own `TypeError` and
    `ValueError`, which some code paths can raise). -/
inductive RdbmsError where
  | columnNotFound (column : String) (table : Option String)
  | duplicateKey (column : String) (value : Value)
  | constraintViolation (msg : String)
  | typeValidation (column : String) (expected : String)
  | invalidIdentifier (name : String)
  | pyValueError (msg : String)
  | pyTypeError
  deriving DecidableEq, Repr

/-! ## validators.py: validate_value_for_type -/

/-- ASCII uppercasing (`str.upper()` for the ASCII type names used
    here); written over the character list so that it reduces in the
    kernel. -/
def strToUpper (s : String) : String := ⟨s.data.map Char.toUpper⟩

/-- `validate_value_for_type(value, data_type, max_length)` from
    rdbms/utils/validators.py.  `None` passes; otherwise the runtime
    kind must match the (string) type name; `isinstance(value, int)`
    accepts ints but the explicit bool exclusion rejects bools for
    INTEGER and FLOAT; FLOAT accepts both ints and floats; VARCHAR
    checks `max_length and len(value) > max_length`. -/
def validate_value_for_type (value : Value) (dataType : String)
    (maxLength : Option Nat) : Except RdbmsError Bool :=
  if value = .vNull then .ok true
  else
    let dt := strToUpper dataType
    if dt = "INTEGER" ∨ dt = "INT" then
      match value with
      | .vInt _ => .ok true
      | _ => .error (.typeValidation "" dt)
    else if dt = "FLOAT" ∨ dt = "REAL" then
      match value with
      | .vInt _ => .ok true
      | .vFloat _ => .ok true
      | _ => .error (.typeValidation "" dt)
    else if dt = "BOOLEAN" ∨ dt = "BOOL" then
      match value with
      | .vBool _ => .ok true
      | _ => .error (.typeValidation "" dt)
    else if dt = "VARCHAR" then
      match value with
      | .vStr s =>
        match maxLength with
        | some m => if m ≠ 0 ∧ s.length > m then
            .error (.typeValidation "" dt) else .ok true
        | none => .ok true
      | _ => .error (.typeValidation "" dt)
    else if dt = "TEXT" then
      match value with
      | .vStr _ => .ok true
      | _ => .error (.typeValidation "" dt)
    else .error (.pyValueError "Unknown data type")

/-! ## types.py: DataType and Column -/

/-- Declared column types (storage/types.py `DataType`). -/
inductive DataType where
  | INTEGER | FLOAT | VARCHAR | TEXT | BOOLEAN
  deriving DecidableEq, Repr

/-- `DataType.value`: the string name handed to the validator. -/
def DataType.value : DataType → String
  | .INTEGER => "INTEGER"
  | .FLOAT => "FLOAT"
  | .VARCHAR => "VARCHAR"
  | .TEXT => "TEXT"
  | .BOOLEAN => "BOOLEAN"

/-- A column: name, declared type, optional VARCHAR bound, and the
    members of its constraint set {PRIMARY KEY, UNIQUE, NOT NULL}
    (membership flags for the Python `constraints` set). -/
structure Column where
  name : String
  dataType : DataType
  maxLength : Option Nat := none
  pk : Bool := false
  uniq : Bool := false
  nn : Bool := false
  deriving DecidableEq, Repr

/-- `Column.is_primary_key`. -/
def Column.is_primary_key (c : Column) : Bool := c.pk

/-- `Column.is_unique`: UNIQUE in constraints or primary key. -/
def Column.is_unique (c : Column) : Bool := c.uniq || c.pk

/-- `Column.is_not_null`: NOT NULL in constraints or primary key. -/
def Column.is_not_null (c : Column) : Bool := c.nn || c.pk

/-- `Column.validate(value, column_name_for_error)`: NULL is rejected
    exactly for NOT-NULL columns, otherwise the value goes through
    `validate_value_for_type`; a `TypeValidationError` from there is
    re-raised carrying the column name (other errors propagate). -/
def Column.validate (c : Column) (value : Value) (colName : String) :
    Except RdbmsError Unit :=
  if value = .vNull then
    if c.is_not_null then
      .error (.constraintViolation ("Column " ++ colName ++ " cannot be NULL"))
    else .ok ()
  else
    match validate_value_for_type value c.dataType.value c.maxLength with
    | .ok _ => .ok ()
    | .error (.typeValidation _ _) =>
        .error (.typeValidation colName c.dataType.value)
    | .error e => .error e

/-! ## index.py: HashIndex

A Python dict keyed by column values; dict key equality is `pyEq`, so
the model is a total map from canonical keys (`VKey`) to the list of
row ids, absent keys mapping to `[]` (the source deletes a key when its
list empties, and `search` treats an absent key as `[]`, so `[]` and
absent are observationally identical). -/

/-- Hash index: canonical key -> row ids holding that key. -/
structure HashIndex where
  m : VKey → List Nat

/-- The empty index. -/
def HashIndex.empty : HashIndex := ⟨fun _ => []⟩

/-- `HashIndex.insert(key, row_id)`: None keys are never indexed;
    otherwise append to the key's list. -/
def HashIndex.insert (i : HashIndex) (key : Value) (rowId : Nat) : HashIndex :=
  if key = .vNull then i
  else ⟨fun κ => if κ = keyOf key then i.m (keyOf key) ++ [rowId] else i.m κ⟩

/-- `HashIndex.search(key)`: `[]` for None, else the key's list (the
    source returns a copy; the model is pure, so copying is implicit). -/
def HashIndex.search (i : HashIndex) (key : Value) : List Nat :=
  if key = .vNull then [] else i.m (keyOf key)

/-- `HashIndex.delete(key, row_id)`: removes the first occurrence of
    `row_id` from the key's list; absent key or absent row id is a
    benign no-op (the source swallows `ValueError`). -/
def HashIndex.delete (i : HashIndex) (key : Value) (rowId : Nat) : HashIndex :=
  if key = .vNull then i
  else ⟨fun κ => if κ = keyOf key then (i.m (keyOf key)).erase rowId else i.m κ⟩

/-! ## table.py: rows and tables -/

/-- A stored row: the column -> value dict (insertion order preserved)
    plus the internal `_row_id` (kept as a separate field). -/
structure TableRow where
  fields : List (String × Value)
  rid : Nat
  deriving DecidableEq, Repr

/-- Association-list lookup, the model of `dict[k]` / `dict.get(k)` for
    string-keyed dicts (string keys hash structurally). -/
def alookup {α : Type} : List (String × α) → String → Option α
  | [], _ => none
  | (k, v) :: rest, key => if k = key then some v else alookup rest key

/-- `row.get(k)` on a row dict: missing key gives Python `None`. -/
def rowGetD (fields : List (String × Value)) (key : String) : Value :=
  (alookup fields key).getD .vNull

/-- A table: schema (ordered columns), optional primary key, row
    storage, next internal row id, soft-deleted id set, and the
    column -> index dict. -/
structure Table where
  name : String
  columns : List Column
  primaryKey : Option String
  rows : List TableRow
  nextRowId : Nat
  deleted : List Nat
  indexes : List (String × HashIndex)

/-- Column names in schema order (`column_order`). -/
def Table.colNames (t : Table) : List String := t.columns.map Column.name

/-- `self.columns[name]` (column metadata lookup by name). -/
def Table.getCol (t : Table) (name : String) : Option Column :=
  t.columns.find? (fun c => c.name = name)

/-- The `for i, row in enumerate(self._rows)` searches: split the row
    list at the first live row with the given id (`row_id not in
    self._deleted_row_ids`), returning (prefix, the row, suffix). -/
def findLive (rows : List TableRow) (deleted : List Nat) (rid : Nat) :
    Option (List TableRow × TableRow × List TableRow) :=
  match rows with
  | [] => none
  | r :: rest =>
    if r.rid = rid ∧ rid ∉ deleted then some ([], r, rest)
    else match findLive rest deleted rid with
      | some (p, x, s) => some (r :: p, x, s)
      | none => none

/-- `Table.get_row(row_id)`: external view (no `_row_id`) of a live
    row, or absent. -/
def Table.get_row (t : Table) (rid : Nat) : Option (List (String × Value)) :=
  (findLive t.rows t.deleted rid).map (fun pxs => pxs.2.1.fields)

/-- `Table.scan()`: all live rows in insertion order, internal ids
    stripped. -/
def Table.scan (t : Table) : List (List (String × Value)) :=
  (t.rows.filter (fun r => r.rid ∉ t.deleted)).map TableRow.fields

/-- `Table.has_index(column_name)`. -/
def Table.has_index (t : Table) (c : String) : Bool := (alookup t.indexes c).isSome

/-- `Table.get_index(column_name)`. -/
def Table.get_index (t : Table) (c : String) : Option HashIndex :=
  alookup t.indexes c

/-- `Table._find_by_index(column_name, value)`: `None` when the column
    has no index, else the index's search result. -/
def Table.find_by_index (t : Table) (c : String) (v : Value) : Option (List Nat) :=
  (alookup t.indexes c).map (fun idx => idx.search v)

/-- `Table.row_count()`. -/
def Table.row_count (t : Table) : Nat :=
  t.rows.length - t.deleted.length

/-! ### Table construction (`Table.__init__`) -/

/-- Build one fresh index over the current rows (`create_index`'s
    population loop: every stored row that is not deleted is inserted
    under its current value; the index itself drops None keys). -/
def buildIndex (rows : List TableRow) (deleted : List Nat) (c : String) :
    HashIndex :=
  rows.foldl
    (fun idx r =>
      if r.rid ∉ deleted then idx.insert (rowGetD r.fields c) r.rid
      else idx)
    HashIndex.empty

/-- `Table.create_index(column_name)`: unknown column raises; an
    existing index is left untouched; otherwise a freshly populated
    index is added to the index dict. -/
def Table.create_index (t : Table) (c : String) :
    Except RdbmsError Unit × Table :=
  if (t.getCol c).isNone then
    (.error (.columnNotFound c (some t.name)), t)
  else if (alookup t.indexes c).isSome then (.ok (), t)
  else
    (.ok (), { t with indexes := t.indexes ++ [(c, buildIndex t.rows t.deleted c)] })

/-- One step of the auto-index loop of `Table.__init__`. -/
def autoIndexStep (t : Table) (c : Column) : Table :=
  if c.is_primary_key || c.is_unique then (t.create_index c.name).2 else t

/-- `Table.__init__(name, columns)`: requires at least one column and
    at most one primary key, then auto-creates indexes for primary-key
    and unique columns (on an empty table). -/
def mkTable (name : String) (columns : List Column) :
    Except RdbmsError Table :=
  if columns = [] then .error (.pyValueError "Table must have at least one column")
  else if 1 < (columns.filter Column.is_primary_key).length then
    .error (.pyValueError "Table can have at most one PRIMARY KEY")
  else
    let base : Table :=
      { name := name
        columns := columns
        primaryKey := ((columns.filter Column.is_primary_key).head?).map Column.name
        rows := []
        nextRowId := 0
        deleted := []
        indexes := [] }
    .ok (columns.foldl autoIndexStep base)

/-! ### insert_row -/

/-- First loop of `insert_row`: every key of `row_data` must be a known
    column. -/
def checkKnownColumns (t : Table) : List (String × Value) → Except RdbmsError Unit
  | [] => .ok ()
  | (k, _) :: rest =>
    if (t.getCol k).isSome then checkKnownColumns t rest
    else .error (.columnNotFound k (some t.name))

/-- Second loop of `insert_row`: build the complete row over all
    declared columns (missing inputs default to None), validating each
    value via `Column.validate`. -/
def buildCompleteRow (columns : List Column) (rowData : List (String × Value)) :
    Except RdbmsError (List (String × Value)) :=
  match columns with
  | [] => .ok []
  | c :: rest =>
    let value := (alookup rowData c.name).getD .vNull
    match c.validate value c.name with
    | .error e => .error e
    | .ok _ =>
      match buildCompleteRow rest rowData with
      | .error e => .error e
      | .ok tail => .ok ((c.name, value) :: tail)

/-- PRIMARY KEY uniqueness pre-check of `insert_row`: a non-null pk
    value already present in the pk index is a duplicate key. -/
def checkPrimaryKey (t : Table) (complete : List (String × Value)) :
    Except RdbmsError Unit :=
  match t.primaryKey with
  | none => .ok ()
  | some pk =>
    if rowGetD complete pk = .vNull then .ok ()
    else match t.find_by_index pk (rowGetD complete pk) with
      | some (_ :: _) => .error (.duplicateKey pk (rowGetD complete pk))
      | _ => .ok ()

/-- UNIQUE pre-checks of `insert_row` (unique non-primary columns with
    a non-null value must not collide). -/
def checkUniques (t : Table) (complete : List (String × Value)) :
    List Column → Except RdbmsError Unit
  | [] => .ok ()
  | c :: rest =>
    if c.is_unique && !c.is_primary_key then
      let value := rowGetD complete c.name
      if value = .vNull then checkUniques t complete rest
      else match t.find_by_index c.name value with
        | some (_ :: _) => .error (.duplicateKey c.name value)
        | _ => checkUniques t complete rest
    else checkUniques t complete rest

/-- `Table.insert_row(row_data)`.  All checks run first; only then is
    the row id assigned, the row appended, and every index updated.
    The returned table is the state at return or at the raise. -/
def Table.insert_row (t : Table) (rowData : List (String × Value)) :
    Except RdbmsError Nat × Table :=
  match checkKnownColumns t rowData with
  | .error e => (.error e, t)
  | .ok _ =>
    match buildCompleteRow t.columns rowData with
    | .error e => (.error e, t)
    | .ok complete =>
      match checkPrimaryKey t complete with
      | .error e => (.error e, t)
      | .ok _ =>
        match checkUniques t complete t.columns with
        | .error e => (.error e, t)
        | .ok _ =>
          let rid := t.nextRowId
          (.ok rid,
            { t with
                nextRowId := rid + 1
                rows := t.rows ++ [⟨complete, rid⟩]
                indexes := t.indexes.map
                  (fun p => (p.1, p.2.insert (rowGetD complete p.1) rid)) })

/-! ### update_row -/

/-- Validation loop of `update_row`: unknown column, primary-key
    modification, value validation, and unique collision (allowed when
    the sole holder is this row) — all before any mutation. -/
def checkAssignments (t : Table) (rid : Nat) :
    List (String × Value) → Except RdbmsError Unit
  | [] => .ok ()
  | (colName, newValue) :: rest =>
    match t.getCol colName with
    | none => .error (.columnNotFound colName (some t.name))
    | some column =>
      if column.is_primary_key then
        .error (.constraintViolation
          ("Cannot update PRIMARY KEY column " ++ colName))
      else match column.validate newValue colName with
        | .error e => .error e
        | .ok _ =>
          if column.is_unique && !(newValue = .vNull) then
            match t.find_by_index colName newValue with
            | some (existing0 :: _) =>
              if existing0 ≠ rid then .error (.duplicateKey colName newValue)
              else checkAssignments t rid rest
            | _ => checkAssignments t rid rest
          else checkAssignments t rid rest

/-- One step of the apply loop of `update_row`: overwrite one column of
    the row being built and, if the column is indexed, delete the old
    (pre-update) key mapping and insert the new one. -/
def applyOneAssignment (oldFields : List (String × Value)) (rid : Nat)
    (acc : List (String × Value) × List (String × HashIndex))
    (kv : String × Value) : List (String × Value) × List (String × HashIndex) :=
  let newRow := acc.1.map (fun p => if p.1 = kv.1 then (p.1, kv.2) else p)
  let indexes := acc.2.map (fun p =>
    if p.1 = kv.1 then
      (p.1, (p.2.delete (rowGetD oldFields kv.1) rid).insert kv.2 rid)
    else p)
  (newRow, indexes)

/-- `Table.update_row(row_id, updates)`: locate the live row, run all
    validations, then apply the assignments (row replaced wholesale at
    its position, affected indexes re-synchronized). -/
def Table.update_row (t : Table) (rid : Nat) (updates : List (String × Value)) :
    Except RdbmsError Bool × Table :=
  match findLive t.rows t.deleted rid with
  | none => (.ok false, t)
  | some (pre, oldRow, post) =>
    match checkAssignments t rid updates with
    | .error e => (.error e, t)
    | .ok _ =>
      let applied := updates.foldl (applyOneAssignment oldRow.fields rid)
        (oldRow.fields, t.indexes)
      (.ok true,
        { t with
            rows := pre ++ ⟨applied.1, oldRow.rid⟩ :: post
            indexes := applied.2 })

/-! ### delete_row -/

/-- `Table.delete_row(row_id)`: mark the live row deleted and remove
    its (pre-deletion) value from every index; absent/deleted ids give
    `False` and change nothing. -/
def Table.delete_row (t : Table) (rid : Nat) : Bool × Table :=
  match findLive t.rows t.deleted rid with
  | none => (false, t)
  | some (_, row, _) =>
    (true,
      { t with
          deleted := rid :: t.deleted
          indexes := t.indexes.map
            (fun p => (p.1, p.2.delete (rowGetD row.fields p.1) rid)) })

/-! ## parser/ast.py: predicate AST -/

/-- Comparison operators. -/
inductive ComparisonOp where
  | EQ | NE | LT | GT | LTE | GTE
  deriving DecidableEq, Repr

/-- Logical operators. -/
inductive LogicalOp where
  | AND | OR
  deriving DecidableEq, Repr

/-- Expressions: a column reference (optionally table-qualified) or a
    literal.  (The `Literal.type` tag of ast.py is carried nowhere into
    evaluation and is omitted.) -/
inductive Expr where
  | columnRef (columnName : String) (tableName : Option String)
  | literal (value : Value)
  deriving DecidableEq, Repr

/-- Conditions: comparison leaves and AND/OR nodes. -/
inductive Condition where
  | comparison (left : Expr) (op : ComparisonOp) (right : Expr)
  | logical (left : Condition) (op : LogicalOp) (right : Condition)
  deriving DecidableEq, Repr

/-! ## utils/row_utils.py -/

/-- Rows as seen by evaluation/projection: a column -> value mapping
    whose keys may be bare or table-qualified. -/
abbrev RowMap := List (String × Value)

/-- `get_column_value(row, column_name, table_name)`: with a table
    qualifier try `table.column` first, then the bare name; `none`
    models the `KeyError`. -/
def get_column_value (row : RowMap) (columnName : String)
    (tableName : Option String) : Option Value :=
  match tableName with
  | some tn =>
    match alookup row (tn ++ "." ++ columnName) with
    | some v => some v
    | none => alookup row columnName
  | none => alookup row columnName

/-- `project_columns(row, columns)`: keep the requested columns that
    are present, silently skipping absent ones (`if col in row`). -/
def project_columns (row : RowMap) (columns : List String) : RowMap :=
  columns.filterMap (fun c => (alookup row c).map (fun v => (c, v)))

/-! ## executor/evaluator.py: ConditionEvaluator -/

/-- `ConditionEvaluator._get_value(expr, row)`: literals evaluate to
    themselves; column references resolve through `get_column_value`,
    with `KeyError` re-raised as `ColumnNotFoundError(column_name)`. -/
def getValue (e : Expr) (row : RowMap) : Except RdbmsError Value :=
  match e with
  | .columnRef c tn =>
    match get_column_value row c tn with
    | some v => .ok v
    | none => .error (.columnNotFound c none)
  | .literal v => .ok v

/-- The operator dispatch at the end of `_evaluate_comparison`, on two
    non-null operands; `<`/`>`/`<=`/`>=` on incomparable kinds is a
    Python `TypeError`. -/
def applyCompOp (op : ComparisonOp) (l r : Value) : Except RdbmsError Bool :=
  match op with
  | .EQ => .ok (pyEq l r)
  | .NE => .ok (!pyEq l r)
  | .LT => match pyLt l r with
    | some b => .ok b
    | none => .error .pyTypeError
  | .GT => match pyLt r l with
    | some b => .ok b
    | none => .error .pyTypeError
  | .LTE => match pyLe l r with
    | some b => .ok b
    | none => .error .pyTypeError
  | .GTE => match pyLe r l with
    | some b => .ok b
    | none => .error .pyTypeError

/-- `ConditionEvaluator.evaluate`: comparisons resolve both operands
    (left first), apply the NULL rule (any null operand gives `False`
    except `!=`, which is plain Python inequality), then the operator;
    logical nodes evaluate the left side and short-circuit. -/
def evaluate (cond : Condition) (row : RowMap) : Except RdbmsError Bool :=
  match cond with
  | .comparison left op right =>
    match getValue left row with
    | .error e => .error e
    | .ok lv =>
      match getValue right row with
      | .error e => .error e
      | .ok rv =>
        if lv = .vNull ∨ rv = .vNull then
          if op = .NE then .ok (!pyEq lv rv) else .ok false
        else applyCompOp op lv rv
  | .logical left op right =>
    match evaluate left row with
    | .error e => .error e
    | .ok leftResult =>
      match op with
      | .AND => if !leftResult then .ok false else evaluate right row
      | .OR => if leftResult then .ok true else evaluate right row

/-! ## executor/planner.py: QueryPlanner -/

/-- `QueryPlanner._find_index_opportunity`: a top-level equality
    between a column reference and a literal (either order) where the
    column currently has an index. -/
def find_index_opportunity (t : Table) (cond : Condition) :
    Option String × Option Value :=
  match cond with
  | .comparison (.columnRef c _) .EQ (.literal v) =>
    if t.has_index c then (some c, some v) else (none, none)
  | .comparison (.literal v) .EQ (.columnRef c _) =>
    if t.has_index c then (some c, some v) else (none, none)
  | _ => (none, none)

/-- `QueryPlanner._get_candidate_rows`: index point lookup (live rows
    fetched by id) when the opportunity exists with a non-None value,
    else a full scan. -/
def get_candidate_rows (t : Table) (cond : Condition) :
    List RowMap :=
  match find_index_opportunity t cond with
  | (some c, some v) =>
    if v ≠ .vNull then
      match t.get_index c with
      | some idx => (idx.search v).filterMap t.get_row
      | none => t.scan
    else t.scan
  | _ => t.scan

/-- The filter loop of `get_matching_rows` (and of a full scan):
    evaluate the predicate on each row in order, keeping the accepted
    ones; an evaluation exception propagates. -/
def filterMatching (cond : Condition) : List RowMap →
    Except RdbmsError (List RowMap)
  | [] => .ok []
  | row :: rest =>
    match evaluate cond row with
    | .error e => .error e
    | .ok b =>
      match filterMatching cond rest with
      | .error e => .error e
      | .ok kept => .ok (if b then row :: kept else kept)

/-- `QueryPlanner.get_matching_rows(table, where)`: no WHERE clause
    gives every live row; otherwise candidates (index or scan) filtered
    through the evaluator. -/
def get_matching_rows (t : Table) (whereCond : Option Condition) :
    Except RdbmsError (List RowMap) :=
  match whereCond with
  | none => .ok t.scan
  | some cond => filterMatching cond (get_candidate_rows t cond)

/-- The specification-side reference: filter a full scan through the
    evaluator (what `get_matching_rows` computes when it never uses an
    index). -/
def fullScanMatching (t : Table) (whereCond : Option Condition) :
    Except RdbmsError (List RowMap) :=
  match whereCond with
  | none => .ok t.scan
  | some cond => filterMatching cond t.scan

/-! ## executor/executor.py: SELECT / UPDATE / DELETE on one table -/

/-- The column list of a SELECT: `*` or explicit names. -/
inductive SelectCols where
  | star
  | names (cols : List String)
  deriving DecidableEq, Repr

/-- `QueryExecutor._execute_select` (single-table path): matching rows
    from the planner, then projection.  `project_columns` is total, so
    the `except KeyError` wrapper in the source never fires. -/
def execute_select (t : Table) (cols : SelectCols)
    (whereCond : Option Condition) : Except RdbmsError (List RowMap) :=
  match get_matching_rows t whereCond with
  | .error e => .error e
  | .ok matching =>
    match cols with
    | .star => .ok matching
    | .names cs => .ok (matching.map (fun row => project_columns row cs))

/-- The row-matching test of `_execute_update`/`_execute_delete`:
    `all(row.get(k) == v for k, v in match_row.items())`. -/
def rowMatches (matchRow : RowMap) (fields : RowMap) : Bool :=
  matchRow.all (fun kv => pyEq (rowGetD fields kv.1) kv.2)

/-- The inner re-location scan of `_execute_update`/`_execute_delete`:
    the id of the first live stored row whose values match. -/
def findFirstLiveMatching (t : Table) (matchRow : RowMap) : Option Nat :=
  (t.rows.find? (fun r =>
    decide (r.rid ∉ t.deleted) && rowMatches matchRow r.fields)).map TableRow.rid

/-- The mutation loop of `_execute_update`: for each planner match,
    re-locate and update the first matching live row (an update
    exception propagates, keeping the mutations already made). -/
def updateLoop (asg : List (String × Value)) :
    Table → List RowMap → Nat → Except RdbmsError Nat × Table
  | t, [], count => (.ok count, t)
  | t, m :: rest, count =>
    match findFirstLiveMatching t m with
    | none => updateLoop asg t rest count
    | some rid =>
      match t.update_row rid asg with
      | (.error e, t') => (.error e, t')
      | (.ok _, t') => updateLoop asg t' rest (count + 1)

/-- `QueryExecutor._execute_update` on its table. -/
def execute_update (t : Table) (asg : List (String × Value))
    (whereCond : Option Condition) : Except RdbmsError Nat × Table :=
  match get_matching_rows t whereCond with
  | .error e => (.error e, t)
  | .ok matching => updateLoop asg t matching 0

/-- The mutation loop of `_execute_delete`. -/
def deleteLoop : Table → List RowMap → Nat → Nat × Table
  | t, [], count => (count, t)
  | t, m :: rest, count =>
    match findFirstLiveMatching t m with
    | none => deleteLoop t rest count
    | some rid => deleteLoop (t.delete_row rid).2 rest (count + 1)

/-- `QueryExecutor._execute_delete` on its table. -/
def execute_delete (t : Table) (whereCond : Option Condition) :
    Except RdbmsError Nat × Table :=
  match get_matching_rows t whereCond with
  | .error e => (.error e, t)
  | .ok matching =>
    let r := deleteLoop t matching 0
    (.ok r.1, r.2)

/-! ## Operation sequences on a table -/

/-- The table-mutating operations of the public API. -/
inductive TableOp where
  | insert (rowData : List (String × Value))
  | update (rid : Nat) (assignments : List (String × Value))
  | delete (rid : Nat)
  | createIndex (column : String)
  deriving Repr

/-- Apply one operation; a failing operation leaves the table exactly
    as the (translated) method left it. -/
def applyOp (t : Table) (op : TableOp) : Table :=
  match op with
  | .insert rd => (t.insert_row rd).2
  | .update rid asg => (t.update_row rid asg).2
  | .delete rid => (t.delete_row rid).2
  | .createIndex c => (t.create_index c).2

/-- Run a sequence of operations. -/
def runOps (t : Table) (ops : List TableOp) : Table :=
  ops.foldl applyOp t

/-- Input well-formedness of one operation: the `row_data` /
    `updates` arguments are Python dicts, so their key lists are
    duplicate-free. -/
def opWF : TableOp → Prop
  | .insert rd => (rd.map Prod.fst).Nodup
  | .update _ asg => (asg.map Prod.fst).Nodup
  | _ => True

/-- Schema well-formedness as guaranteed upstream of `Table.__init__`:
    `Column.__init__` runs `validate_identifier` on every name (so
    names contain no `.`, which identifiers disallow), and distinct
    declared columns have distinct names (duplicate names would
    silently collapse in the Python `dict` comprehension and are not
    reachable through CREATE TABLE with a sane declaration). -/
def colsWF (columns : List Column) : Prop :=
  (columns.map Column.name).Nodup ∧ ∀ c ∈ columns, '.' ∉ c.name.data

/-! ## The table invariant -/

/-- Everything the storage layer keeps in lock-step.  `idxExact` is the
    index/row-storage consistency invariant: a row id sits in an
    index's slot for canonical key `κ` exactly when it names a live
    stored row whose (non-null) value in the indexed column has that
    canonical key. -/
structure WF (t : Table) : Prop where
  colsNodup : (t.columns.map Column.name).Nodup
  colsNoDot : ∀ c ∈ t.columns, '.' ∉ c.name.data
  pkCol : ∀ C, t.primaryKey = some C →
    ∃ col ∈ t.columns, col.name = C ∧ col.pk = true
  rowsComplete : ∀ r ∈ t.rows, r.fields.map Prod.fst = t.columns.map Column.name
  ridsNodup : (t.rows.map TableRow.rid).Nodup
  ridsLt : ∀ r ∈ t.rows, r.rid < t.nextRowId
  deletedSub : ∀ d ∈ t.deleted, d ∈ t.rows.map TableRow.rid
  idxCols : ∀ p ∈ t.indexes, p.1 ∈ t.columns.map Column.name
  idxNamesNodup : (t.indexes.map Prod.fst).Nodup
  idxNodup : ∀ p ∈ t.indexes, ∀ κ, (p.2.m κ).Nodup
  idxExact : ∀ p ∈ t.indexes, ∀ κ rid, rid ∈ p.2.m κ ↔
    ∃ r ∈ t.rows, r.rid = rid ∧ rid ∉ t.deleted ∧
      ∃ u, alookup r.fields p.1 = some u ∧ u ≠ .vNull ∧ keyOf u = κ
  pkIndexed : ∀ C, t.primaryKey = some C → C ∈ t.indexes.map Prod.fst
  pkUnique : ∀ C, t.primaryKey = some C →
    ∀ p ∈ t.indexes, p.1 = C → ∀ κ, (p.2.m κ).length ≤ 1

/-! ## Basic lemmas: association lists, liveness search, index slots -/

theorem alookup_eq_none_iff {α : Type} (l : List (String × α)) (k : String) :
    alookup l k = none ↔ k ∉ l.map Prod.fst := by
  induction l with
  | nil => simp [alookup]
  | cons p rest ih =>
    obtain ⟨k', v'⟩ := p
    by_cases h : k' = k
    · subst h
      simp [alookup]
    · simp only [alookup, if_neg h, List.map_cons, List.mem_cons, ih]
      constructor
      · rintro hni (hc | hc)
        · exact h hc.symm
        · exact hni hc
      · intro hni hc
        exact hni (Or.inr hc)

theorem alookup_isSome_of_mem_keys {α : Type} {l : List (String × α)} {k : String}
    (h : k ∈ l.map Prod.fst) : (alookup l k).isSome := by
  induction l with
  | nil => simp at h
  | cons p rest ih =>
    obtain ⟨k', v'⟩ := p
    by_cases hp : k' = k
    · simp [alookup, hp]
    · simp only [List.map_cons, List.mem_cons] at h
      rcases h with h | h
      · exact absurd h.symm hp
      · simpa [alookup, hp] using ih h

theorem alookup_mem {α : Type} {l : List (String × α)} {k : String} {v : α}
    (h : alookup l k = some v) : (k, v) ∈ l := by
  induction l with
  | nil => simp [alookup] at h
  | cons p rest ih =>
    obtain ⟨k', v'⟩ := p
    by_cases hp : k' = k
    · subst hp
      simp only [alookup, if_pos trivial, Option.some.injEq, reduceIte] at h
      subst h
      exact List.mem_cons_self _ _
    · simp only [alookup, if_neg hp] at h
      exact List.mem_cons_of_mem _ (ih h)

theorem mem_alookup_of_nodup {α : Type} {l : List (String × α)} {k : String} {v : α}
    (hnd : (l.map Prod.fst).Nodup) (h : (k, v) ∈ l) : alookup l k = some v := by
  induction l with
  | nil => simp at h
  | cons p rest ih =>
    obtain ⟨k', v'⟩ := p
    simp only [List.map_cons, List.nodup_cons] at hnd
    rcases List.mem_cons.1 h with hm | hm
    · have hk : k = k' := congrArg Prod.fst hm
      have hv : v = v' := congrArg Prod.snd hm
      subst hk; subst hv
      simp [alookup]
    · have hk : k' ≠ k := by
        intro he
        exact hnd.1 (he ▸ (List.mem_map.2 ⟨(k, v), hm, rfl⟩))
      simp only [alookup, if_neg hk]
      exact ih hnd.2 hm

theorem findLive_some_spec {rows : List TableRow} {deleted : List Nat} {rid : Nat}
    {p : List TableRow} {x : TableRow} {s : List TableRow}
    (h : findLive rows deleted rid = some (p, x, s)) :
    rows = p ++ x :: s ∧ x.rid = rid ∧ rid ∉ deleted ∧ ∀ r ∈ p, r.rid ≠ rid := by
  induction rows generalizing p with
  | nil => simp [findLive] at h
  | cons r rest ih =>
    by_cases hr : r.rid = rid ∧ rid ∉ deleted
    · simp only [findLive, if_pos hr, Option.some.injEq, Prod.mk.injEq] at h
      obtain ⟨h1, h2, h3⟩ := h
      subst h1; subst h2; subst h3
      exact ⟨rfl, hr.1, hr.2, by simp⟩
    · simp only [findLive, if_neg hr] at h
      cases hfl : findLive rest deleted rid with
      | none => simp [hfl] at h
      | some pxs =>
        obtain ⟨p', x', s'⟩ := pxs
        simp only [hfl, Option.some.injEq, Prod.mk.injEq] at h
        obtain ⟨h1, h2, h3⟩ := h
        subst h1; subst h2; subst h3
        obtain ⟨e1, e2, e3, e4⟩ := ih hfl
        refine ⟨by simp [e1], e2, e3, ?_⟩
        intro q hq
        rcases List.mem_cons.1 hq with hq | hq
        · subst hq
          exact fun he => hr ⟨he, e3⟩
        · exact e4 q hq

theorem findLive_none_iff {rows : List TableRow} {deleted : List Nat} {rid : Nat} :
    findLive rows deleted rid = none ↔
      ∀ r ∈ rows, ¬(r.rid = rid ∧ rid ∉ deleted) := by
  induction rows with
  | nil => simp [findLive]
  | cons r rest ih =>
    by_cases hr : r.rid = rid ∧ rid ∉ deleted
    · simp only [findLive, if_pos hr]
      constructor
      · intro h; cases h
      · intro h
        exact absurd hr (h r (List.mem_cons_self r rest))
    · simp only [findLive, if_neg hr]
      cases hfl : findLive rest deleted rid with
      | none =>
        constructor
        · intro _ r' hr'
          rcases List.mem_cons.1 hr' with h | h
          · subst h; exact hr
          · exact (ih.1 hfl) r' h
        · intro _; rfl
      | some pxs =>
        constructor
        · intro h; cases h
        · intro hall
          have : findLive rest deleted rid = none :=
            ih.2 (fun r' h => hall r' (List.mem_cons_of_mem _ h))
          rw [this] at hfl
          cases hfl

theorem findLive_mem {rows : List TableRow} {deleted : List Nat} {rid : Nat}
    {r : TableRow} (hrow : r ∈ rows) (hrid : r.rid = rid) (hdel : rid ∉ deleted)
    (hnd : (rows.map TableRow.rid).Nodup) :
    ∃ p s, findLive rows deleted rid = some (p, r, s) := by
  induction rows with
  | nil => simp at hrow
  | cons q rest ih =>
    simp only [List.map_cons, List.nodup_cons] at hnd
    by_cases hq : q.rid = rid ∧ rid ∉ deleted
    · have : q = r := by
        rcases List.mem_cons.1 hrow with h | h
        · exact h.symm
        · exact absurd (hrid ▸ List.mem_map.2 ⟨r, h, rfl⟩) (hq.1 ▸ hnd.1)
      subst this
      exact ⟨[], rest, by simp [findLive, hq]⟩
    · have hrr : r ∈ rest := by
        rcases List.mem_cons.1 hrow with h | h
        · subst h
          exact absurd ⟨hrid, hdel⟩ hq
        · exact h
      obtain ⟨p, s, hps⟩ := ih hrr hnd.2
      exact ⟨q :: p, s, by simp [findLive, hq, hps]⟩

theorem HashIndex.m_insert (i : HashIndex) (key : Value) (rid : Nat) (κ : VKey) :
    (i.insert key rid).m κ =
      if key ≠ .vNull ∧ κ = keyOf key then i.m κ ++ [rid] else i.m κ := by
  by_cases h : key = .vNull
  · simp [HashIndex.insert, h]
  · by_cases hκ : κ = keyOf key <;> simp [HashIndex.insert, h, hκ]

theorem HashIndex.m_delete (i : HashIndex) (key : Value) (rid : Nat) (κ : VKey) :
    (i.delete key rid).m κ =
      if key ≠ .vNull ∧ κ = keyOf key then (i.m κ).erase rid else i.m κ := by
  by_cases h : key = .vNull
  · simp [HashIndex.delete, h]
  · by_cases hκ : κ = keyOf key <;> simp [HashIndex.delete, h, hκ]

theorem keyOf_ne_null {u : Value} (h : u ≠ .vNull) : keyOf u ≠ .null := by
  cases u <;> simp [keyOf] at h ⊢

theorem eq_null_of_keyOf_null {u : Value} (h : keyOf u = .null) : u = .vNull := by
  cases u <;> simp [keyOf] at h ⊢

/-! ## buildIndex characterization -/

/-- The contribution clause of one row to one index slot. -/
def slotClause (c : String) (deleted : List Nat) (κ : VKey) (rid : Nat)
    (r : TableRow) : Prop :=
  r.rid = rid ∧ rid ∉ deleted ∧
    ∃ u, alookup r.fields c = some u ∧ u ≠ .vNull ∧ keyOf u = κ

theorem buildIndex_go_mem (c : String) (deleted : List Nat)
    (rows : List TableRow) (idx : HashIndex) (κ : VKey) (rid : Nat) :
    rid ∈ ((rows.foldl
      (fun idx r =>
        if r.rid ∉ deleted then idx.insert (rowGetD r.fields c) r.rid else idx)
      idx).m κ) ↔
    rid ∈ idx.m κ ∨ ∃ r ∈ rows, slotClause c deleted κ rid r := by
  induction rows generalizing idx with
  | nil => simp
  | cons r rest ih =>
    simp only [List.foldl_cons, ih]
    constructor
    · rintro (hm | hm)
      · by_cases hl : r.rid ∉ deleted
        · rw [if_pos hl, HashIndex.m_insert] at hm
          by_cases hc : rowGetD r.fields c ≠ .vNull ∧ κ = keyOf (rowGetD r.fields c)
          · rw [if_pos hc] at hm
            rcases List.mem_append.1 hm with hm | hm
            · exact Or.inl hm
            · simp only [List.mem_singleton] at hm
              subst hm
              refine Or.inr ⟨r, List.mem_cons_self _ _, rfl, hl, ?_⟩
              rcases ha : alookup r.fields c with _ | u
              · exact absurd (by simp [rowGetD, ha]) hc.1
              · exact ⟨u, rfl, by simpa [rowGetD, ha] using hc.1,
                  by simp [rowGetD, ha] at hc; exact hc.2.symm⟩
          · rw [if_neg hc] at hm
            exact Or.inl hm
        · rw [if_neg hl] at hm
          exact Or.inl hm
      · obtain ⟨r', hr', hcl⟩ := hm
        exact Or.inr ⟨r', List.mem_cons_of_mem _ hr', hcl⟩
    · rintro (hm | ⟨r', hr', hcl⟩)
      · left
        by_cases hl : r.rid ∉ deleted
        · rw [if_pos hl, HashIndex.m_insert]
          by_cases hc : rowGetD r.fields c ≠ .vNull ∧ κ = keyOf (rowGetD r.fields c)
          · rw [if_pos hc]; exact List.mem_append_left _ hm
          · rw [if_neg hc]; exact hm
        · rw [if_neg hl]; exact hm
      · rcases List.mem_cons.1 hr' with he | he
        · subst he
          obtain ⟨h1, h2, u, hu, hun, hκ⟩ := hcl
          left
          rw [if_pos (h1 ▸ h2), HashIndex.m_insert]
          have hval : rowGetD r'.fields c = u := by simp [rowGetD, hu]
          rw [if_pos ⟨hval ▸ hun, by rw [hval, hκ]⟩]
          exact List.mem_append_right _ (by simp [h1])
        · exact Or.inr ⟨r', he, hcl⟩

theorem buildIndex_mem (c : String) (deleted : List Nat) (rows : List TableRow)
    (κ : VKey) (rid : Nat) :
    rid ∈ (buildIndex rows deleted c).m κ ↔
      ∃ r ∈ rows, slotClause c deleted κ rid r := by
  rw [buildIndex, buildIndex_go_mem]
  simp [HashIndex.empty]

theorem buildIndex_go_nodup (c : String) (deleted : List Nat)
    (rows : List TableRow) (idx : HashIndex) (κ : VKey)
    (hnd : (rows.map TableRow.rid).Nodup)
    (hidx : ∀ κ', (idx.m κ').Nodup)
    (hfresh : ∀ κ' rid, rid ∈ idx.m κ' → rid ∉ rows.map TableRow.rid) :
    ((rows.foldl
      (fun idx r =>
        if r.rid ∉ deleted then idx.insert (rowGetD r.fields c) r.rid else idx)
      idx).m κ).Nodup := by
  induction rows generalizing idx with
  | nil => exact hidx κ
  | cons r rest ih =>
    simp only [List.map_cons, List.nodup_cons] at hnd
    simp only [List.foldl_cons]
    refine ih _ hnd.2 ?_ ?_
    · intro κ'
      by_cases hl : r.rid ∉ deleted
      · rw [if_pos hl, HashIndex.m_insert]
        by_cases hc : rowGetD r.fields c ≠ .vNull ∧ κ' = keyOf (rowGetD r.fields c)
        · rw [if_pos hc]
          refine List.Nodup.append (hidx κ') (List.nodup_singleton _) ?_
          intro a ha hb
          simp only [List.mem_singleton] at hb
          subst hb
          exact hfresh κ' _ ha (by simp)
        · rw [if_neg hc]; exact hidx κ'
      · rw [if_neg hl]; exact hidx κ'
    · intro κ' rid' hm
      by_cases hl : r.rid ∉ deleted
      · rw [if_pos hl, HashIndex.m_insert] at hm
        by_cases hc : rowGetD r.fields c ≠ .vNull ∧ κ' = keyOf (rowGetD r.fields c)
        · rw [if_pos hc] at hm
          rcases List.mem_append.1 hm with hm | hm
          · intro hmem
            exact hfresh κ' rid' hm (List.mem_cons_of_mem _ (by simpa using hmem))
          · simp only [List.mem_singleton] at hm
            subst hm
            intro hmem
            exact hnd.1 (by simpa using hmem)
        · rw [if_neg hc] at hm
          intro hmem
          exact hfresh κ' rid' hm (List.mem_cons_of_mem _ (by simpa using hmem))
      · rw [if_neg hl] at hm
        intro hmem
        exact hfresh κ' rid' hm (List.mem_cons_of_mem _ (by simpa using hmem))

theorem buildIndex_nodup (c : String) (deleted : List Nat) (rows : List TableRow)
    (κ : VKey) (hnd : (rows.map TableRow.rid).Nodup) :
    ((buildIndex rows deleted c).m κ).Nodup := by
  apply buildIndex_go_nodup c deleted rows HashIndex.empty κ hnd
  · intro κ'; simp [HashIndex.empty]
  · intro κ' rid h; simp [HashIndex.empty] at h

/-! ## getCol and create_index -/

theorem getCol_isSome_iff (t : Table) (c : String) :
    (t.getCol c).isSome ↔ c ∈ t.colNames := by
  simp only [Table.getCol, Table.colNames, List.find?_isSome, List.mem_map]
  constructor
  · rintro ⟨col, hm, hname⟩
    exact ⟨col, hm, by simpa using hname⟩
  · rintro ⟨col, hm, hname⟩
    exact ⟨col, hm, by simpa using hname⟩

theorem getCol_some_mem {t : Table} {c : String} {col : Column}
    (h : t.getCol c = some col) : col ∈ t.columns ∧ col.name = c := by
  have hm := List.find?_some h
  exact ⟨List.mem_of_find?_eq_some h, by simpa using hm⟩

theorem getCol_name_eq {t : Table} {col : Column}
    (hnd : (t.columns.map Column.name).Nodup) (hm : col ∈ t.columns) :
    t.getCol col.name = some col := by
  rcases hfind : t.getCol col.name with _ | col'
  · rw [Table.getCol, List.find?_eq_none] at hfind
    exact absurd (by simp) (hfind col hm)
  · obtain ⟨hm', hname⟩ := getCol_some_mem hfind
    have heq : col' = col := by
      by_contra hne
      have hmem : col.name ∈ (t.columns.erase col').map Column.name := by
        refine List.mem_map.2 ⟨col, ?_, rfl⟩
        exact (List.mem_erase_of_ne (fun he => hne he.symm)).2 hm
      have hperm := List.perm_cons_erase hm'
      have hnd' := hnd.perm (hperm.map Column.name)
      simp only [List.map_cons, List.nodup_cons] at hnd'
      exact hnd'.1 (hname ▸ hmem)
    rw [heq]

theorem create_index_snd (t : Table) (c : String) :
    (t.create_index c).2 =
      if ((t.getCol c).isSome && (alookup t.indexes c).isNone) = true
      then { t with indexes := t.indexes ++ [(c, buildIndex t.rows t.deleted c)] }
      else t := by
  rcases hg : t.getCol c with _ | col
  · simp [Table.create_index, hg]
  · rcases ha : alookup t.indexes c with _ | v
    · simp [Table.create_index, hg, ha]
    · simp [Table.create_index, hg, ha]

theorem create_index_keys_mono (t : Table) (c k : String)
    (hk : k ∈ t.indexes.map Prod.fst) :
    k ∈ (t.create_index c).2.indexes.map Prod.fst := by
  rw [create_index_snd]
  by_cases hcond : ((t.getCol c).isSome && (alookup t.indexes c).isNone) = true
  · rw [if_pos hcond]
    simp only [List.map_append, List.mem_append]
    exact Or.inl hk
  · rw [if_neg hcond]
    exact hk

/-- `create_index` preserves the table invariant. -/
theorem wf_create_index {t : Table} (hwf : WF t) (c : String) :
    WF (t.create_index c).2 := by
  rw [create_index_snd]
  by_cases hcond : ((t.getCol c).isSome && (alookup t.indexes c).isNone) = true
  · rw [if_pos hcond]
    rw [Bool.and_eq_true] at hcond
    have hcn : c ∈ t.colNames := (getCol_isSome_iff t c).1 hcond.1
    have hcnotin : c ∉ t.indexes.map Prod.fst :=
      (alookup_eq_none_iff _ _).1 (Option.isNone_iff_eq_none.1 hcond.2)
    refine ⟨hwf.colsNodup, hwf.colsNoDot, hwf.pkCol, hwf.rowsComplete,
      hwf.ridsNodup, hwf.ridsLt, hwf.deletedSub, ?_, ?_, ?_, ?_, ?_, ?_⟩
    · intro p hp
      rcases List.mem_append.1 hp with hp | hp
      · exact hwf.idxCols p hp
      · simp only [List.mem_singleton] at hp
        subst hp
        exact hcn
    · simp only [List.map_append, List.map_cons, List.map_nil]
      rw [List.nodup_append]
      refine ⟨hwf.idxNamesNodup, List.nodup_singleton _, ?_⟩
      intro k hk hk'
      rw [List.mem_singleton.1 hk'] at hk
      exact hcnotin hk
    · intro p hp κ
      rcases List.mem_append.1 hp with hp | hp
      · exact hwf.idxNodup p hp κ
      · simp only [List.mem_singleton] at hp
        subst hp
        exact buildIndex_nodup c t.deleted t.rows κ hwf.ridsNodup
    · intro p hp κ rid
      rcases List.mem_append.1 hp with hp | hp
      · exact hwf.idxExact p hp κ rid
      · simp only [List.mem_singleton] at hp
        subst hp
        exact buildIndex_mem c t.deleted t.rows κ rid
    · intro C hC
      simp only [List.map_append, List.mem_append]
      exact Or.inl (hwf.pkIndexed C hC)
    · intro C hC p hp hpc κ
      rcases List.mem_append.1 hp with hp | hp
      · exact hwf.pkUnique C hC p hp hpc κ
      · simp only [List.mem_singleton] at hp
        subst hp
        refine absurd ?_ hcnotin
        rw [show c = C from hpc]
        exact hwf.pkIndexed C hC
  · rw [if_neg hcond]
    exact hwf

/-! ## mkTable establishes the invariant -/

theorem create_index_proj (t : Table) (c : String) :
    (t.create_index c).2.name = t.name ∧ (t.create_index c).2.columns = t.columns ∧
    (t.create_index c).2.primaryKey = t.primaryKey ∧
    (t.create_index c).2.rows = t.rows ∧
    (t.create_index c).2.nextRowId = t.nextRowId ∧
    (t.create_index c).2.deleted = t.deleted := by
  rw [create_index_snd]
  by_cases hcond : ((t.getCol c).isSome && (alookup t.indexes c).isNone) = true
  · rw [if_pos hcond]
    exact ⟨rfl, rfl, rfl, rfl, rfl, rfl⟩
  · rw [if_neg hcond]
    exact ⟨rfl, rfl, rfl, rfl, rfl, rfl⟩

theorem create_index_indexes_cases (t : Table) (c : String) :
    (t.create_index c).2.indexes = t.indexes ∨
    ((t.create_index c).2.indexes = t.indexes ++ [(c, buildIndex t.rows t.deleted c)] ∧
      c ∉ t.indexes.map Prod.fst ∧ c ∈ t.colNames) := by
  rw [create_index_snd]
  by_cases hcond : ((t.getCol c).isSome && (alookup t.indexes c).isNone) = true
  · rw [if_pos hcond]
    rw [Bool.and_eq_true] at hcond
    exact Or.inr ⟨rfl, (alookup_eq_none_iff _ _).1
      (Option.isNone_iff_eq_none.1 hcond.2), (getCol_isSome_iff t c).1 hcond.1⟩
  · rw [if_neg hcond]
    exact Or.inl rfl

theorem create_index_self_mem (t : Table) (c : String) (hc : c ∈ t.colNames) :
    c ∈ (t.create_index c).2.indexes.map Prod.fst := by
  rw [create_index_snd]
  by_cases hcond : ((t.getCol c).isSome && (alookup t.indexes c).isNone) = true
  · rw [if_pos hcond]; simp
  · rw [if_neg hcond]
    have hg : (t.getCol c).isSome = true := (getCol_isSome_iff t c).2 hc
    rcases ha : alookup t.indexes c with _ | v
    · exact absurd (by simp [hg, ha]) hcond
    · exact List.mem_map.2 ⟨(c, v), alookup_mem ha, rfl⟩

/-- The auto-index fold of `Table.__init__` keeps the built table
    empty and its indexes empty, and ends with every primary-key /
    unique column indexed. -/
theorem autoIndexFold_inv (cs : List Column) (t : Table)
    (hrows : t.rows = []) (hdel : t.deleted = [])
    (hcs : ∀ c ∈ cs, c.name ∈ t.colNames)
    (hnd : (t.indexes.map Prod.fst).Nodup)
    (hempty : ∀ p ∈ t.indexes, p.1 ∈ t.colNames ∧ ∀ κ, p.2.m κ = []) :
    (cs.foldl autoIndexStep t).name = t.name ∧
    (cs.foldl autoIndexStep t).columns = t.columns ∧
    (cs.foldl autoIndexStep t).primaryKey = t.primaryKey ∧
    (cs.foldl autoIndexStep t).rows = [] ∧
    (cs.foldl autoIndexStep t).nextRowId = t.nextRowId ∧
    (cs.foldl autoIndexStep t).deleted = [] ∧
    ((cs.foldl autoIndexStep t).indexes.map Prod.fst).Nodup ∧
    (∀ p ∈ (cs.foldl autoIndexStep t).indexes,
      p.1 ∈ t.colNames ∧ ∀ κ, p.2.m κ = []) ∧
    (∀ k ∈ t.indexes.map Prod.fst,
      k ∈ (cs.foldl autoIndexStep t).indexes.map Prod.fst) ∧
    (∀ c ∈ cs, (c.is_primary_key || c.is_unique) = true →
      c.name ∈ (cs.foldl autoIndexStep t).indexes.map Prod.fst) := by
  induction cs generalizing t with
  | nil =>
    exact ⟨rfl, rfl, rfl, hrows, rfl, hdel, hnd, hempty, fun k hk => hk,
      fun c hc => absurd hc (List.not_mem_nil c)⟩
  | cons c0 rest ih =>
    simp only [List.foldl_cons]
    by_cases hc0 : (c0.is_primary_key || c0.is_unique) = true
    · rw [show autoIndexStep t c0 = (t.create_index c0.name).2 from by
        rw [autoIndexStep, if_pos hc0]]
      obtain ⟨e1, e2, e3, e4, e5, e6⟩ := create_index_proj t c0.name
      have hcn : (t.create_index c0.name).2.colNames = t.colNames := by
        rw [Table.colNames, Table.colNames, e2]
      have hempty1 : ∀ p ∈ (t.create_index c0.name).2.indexes,
          p.1 ∈ t.colNames ∧ ∀ κ, p.2.m κ = [] := by
        rcases create_index_indexes_cases t c0.name with hcase | ⟨hcase, hnm, hmm⟩
        · rw [hcase]; exact hempty
        · rw [hcase]
          intro p hp
          rcases List.mem_append.1 hp with hp | hp
          · exact hempty p hp
          · simp only [List.mem_singleton] at hp
            subst hp
            exact ⟨hmm, fun κ => by rw [hrows]; rfl⟩
      have hnd1 : ((t.create_index c0.name).2.indexes.map Prod.fst).Nodup := by
        rcases create_index_indexes_cases t c0.name with hcase | ⟨hcase, hnm, hmm⟩
        · rw [hcase]; exact hnd
        · rw [hcase]
          simp only [List.map_append, List.map_cons, List.map_nil]
          rw [List.nodup_append]
          refine ⟨hnd, List.nodup_singleton _, ?_⟩
          intro k hk hk'
          rw [List.mem_singleton.1 hk'] at hk
          exact hnm hk
      have hmono : ∀ k ∈ t.indexes.map Prod.fst,
          k ∈ (t.create_index c0.name).2.indexes.map Prod.fst :=
        fun k hk => create_index_keys_mono t c0.name k hk
      obtain ⟨f1, f2, f3, f4, f5, f6, f7, f8, f9, f10⟩ :=
        ih (t.create_index c0.name).2 (e4 ▸ hrows) (e6 ▸ hdel)
          (fun c hc => by rw [hcn]; exact hcs c (List.mem_cons_of_mem _ hc))
          hnd1
          (fun p hp => ⟨by rw [hcn]; exact (hempty1 p hp).1, (hempty1 p hp).2⟩)
      refine ⟨f1.trans e1, f2.trans e2, f3.trans e3, f4, f5.trans e5, f6, f7,
        ?_, ?_, ?_⟩
      · intro p hp
        have := f8 p hp
        exact ⟨by rw [← hcn]; exact this.1, this.2⟩
      · intro k hk
        exact f9 k (hmono k hk)
      · intro c hc hcu
        rcases List.mem_cons.1 hc with he | he
        · subst he
          exact f9 c.name
            (create_index_self_mem t c.name (hcs c (List.mem_cons_self _ _)))
        · exact f10 c he hcu
    · rw [show autoIndexStep t c0 = t from by rw [autoIndexStep, if_neg hc0]]
      obtain ⟨f1, f2, f3, f4, f5, f6, f7, f8, f9, f10⟩ :=
        ih t hrows hdel (fun c hc => hcs c (List.mem_cons_of_mem _ hc)) hnd hempty
      refine ⟨f1, f2, f3, f4, f5, f6, f7, f8, f9, ?_⟩
      intro c hc hcu
      rcases List.mem_cons.1 hc with he | he
      · subst he
        rw [hcu] at hc0
        exact absurd rfl hc0
      · exact f10 c he hcu

/-- A freshly created table satisfies the invariant. -/
theorem wf_mkTable {nm : String} {cols : List Column} {t : Table}
    (hcols : colsWF cols) (h : mkTable nm cols = .ok t) : WF t := by
  rw [mkTable] at h
  by_cases h1 : cols = []
  · rw [if_pos h1] at h; cases h
  · rw [if_neg h1] at h
    by_cases h2 : 1 < (cols.filter Column.is_primary_key).length
    · rw [if_pos h2] at h; cases h
    · rw [if_neg h2] at h
      simp only [Except.ok.injEq] at h
      set base : Table :=
        { name := nm
          columns := cols
          primaryKey := ((cols.filter Column.is_primary_key).head?).map Column.name
          rows := []
          nextRowId := 0
          deleted := []
          indexes := [] } with hbase
      obtain ⟨f1, f2, f3, f4, f5, f6, f7, f8, f9, f10⟩ :=
        autoIndexFold_inv cols base rfl rfl
          (fun c hc => List.mem_map.2 ⟨c, hc, rfl⟩)
          (by simp) (by simp)
      subst h
      refine ⟨by rw [f2]; exact hcols.1, by rw [f2]; exact hcols.2, ?_, ?_, ?_,
        ?_, ?_, ?_, ?_, ?_, ?_, ?_, ?_⟩
      · intro C hC
        rw [f3] at hC
        have hpkbase : base.primaryKey =
            ((cols.filter Column.is_primary_key).head?).map Column.name := rfl
        rw [hpkbase] at hC
        rcases hflt : cols.filter Column.is_primary_key with _ | ⟨c1, crest⟩
        · rw [hflt] at hC; simp at hC
        · rw [hflt] at hC
          simp only [List.head?_cons, Option.map_some', Option.some.injEq] at hC
          have hc1 : c1 ∈ cols.filter Column.is_primary_key := by
            rw [hflt]; exact List.mem_cons_self _ _
          rw [f2]
          exact ⟨c1, (List.mem_filter.1 hc1).1, hC,
            by simpa [Column.is_primary_key] using (List.mem_filter.1 hc1).2⟩
      · rw [f4]; intro r hr; cases hr
      · rw [f4]; simp
      · rw [f4]; intro r hr; cases hr
      · rw [f6]; intro d hd; cases hd
      · intro p hp
        have h8 := (f8 p hp).1
        simp only [Table.colNames] at h8
        rw [f2]
        exact h8
      · exact f7
      · intro p hp κ
        rw [(f8 p hp).2 κ]
        exact List.nodup_nil
      · intro p hp κ rid
        rw [(f8 p hp).2 κ, f4]
        simp
      · intro C hC
        rw [f3] at hC
        have hpkbase : base.primaryKey =
            ((cols.filter Column.is_primary_key).head?).map Column.name := rfl
        rw [hpkbase] at hC
        rcases hflt : cols.filter Column.is_primary_key with _ | ⟨c1, crest⟩
        · rw [hflt] at hC; simp at hC
        · rw [hflt] at hC
          simp only [List.head?_cons, Option.map_some', Option.some.injEq] at hC
          have hc1 : c1 ∈ cols.filter Column.is_primary_key := by
            rw [hflt]; exact List.mem_cons_self _ _
          have hpk : (c1.is_primary_key || c1.is_unique) = true := by
            simp [(List.mem_filter.1 hc1).2]
          exact hC ▸ f10 c1 (List.mem_filter.1 hc1).1 hpk
      · intro C hC p hp hpc κ
        rw [(f8 p hp).2 κ]
        simp

/-! ## Facts extracted from passing checks -/

theorem buildCompleteRow_ok {cols : List Column} {rd complete : List (String × Value)}
    (h : buildCompleteRow cols rd = .ok complete) :
    complete = cols.map (fun c => (c.name, (alookup rd c.name).getD .vNull)) ∧
    ∀ c ∈ cols, c.validate ((alookup rd c.name).getD .vNull) c.name = .ok () := by
  induction cols generalizing complete with
  | nil =>
    simp only [buildCompleteRow, Except.ok.injEq] at h
    subst h
    exact ⟨rfl, by simp⟩
  | cons c rest ih =>
    rw [buildCompleteRow] at h
    rcases hv : c.validate ((alookup rd c.name).getD .vNull) c.name with e | u
    · rw [hv] at h; cases h
    · rw [hv] at h
      rcases hb : buildCompleteRow rest rd with e | tail
      · rw [hb] at h; cases h
      · rw [hb] at h
        simp only [Except.ok.injEq] at h
        subst h
        obtain ⟨ih1, ih2⟩ := ih hb
        refine ⟨by rw [List.map_cons, ← ih1], ?_⟩
        intro c' hc'
        rcases List.mem_cons.1 hc' with he | he
        · subst he; cases u; exact hv
        · exact ih2 c' he

theorem validate_ok_ne_null {c : Column} {v : Value} {n : String}
    (h : c.validate v n = .ok ()) (hnn : c.is_not_null = true) : v ≠ .vNull := by
  intro he
  subst he
  rw [Column.validate, if_pos rfl, if_pos hnn] at h
  cases h

/-- Value of a completed row at one of its columns. -/
theorem alookup_complete {cols : List Column} {rd : List (String × Value)}
    {col : Column} (hnd : (cols.map Column.name).Nodup) (hm : col ∈ cols) :
    alookup (cols.map (fun c => (c.name, (alookup rd c.name).getD .vNull))) col.name
      = some ((alookup rd col.name).getD .vNull) := by
  apply mem_alookup_of_nodup
  · rw [List.map_map]
    simpa using hnd
  · exact List.mem_map.2 ⟨col, hm, rfl⟩

theorem checkAssignments_ok {t : Table} {rid : Nat} {asg : List (String × Value)}
    (h : checkAssignments t rid asg = .ok ()) :
    ∀ kv ∈ asg, ∃ col, t.getCol kv.1 = some col ∧ col.is_primary_key = false ∧
      col.validate kv.2 kv.1 = .ok () := by
  induction asg with
  | nil => intro kv hkv; cases hkv
  | cons kv0 rest ih =>
    intro kv hkv
    rw [checkAssignments] at h
    rcases hg : t.getCol kv0.1 with _ | col
    · simp only [hg] at h; cases h
    · simp only [hg] at h
      by_cases hpk : col.is_primary_key = true
      · rw [if_pos hpk] at h; cases h
      · rw [if_neg hpk] at h
        rcases hv : col.validate kv0.2 kv0.1 with e | u
        · simp only [hv] at h; cases h
        · simp only [hv] at h
          have hrest : checkAssignments t rid rest = .ok () := by
            by_cases hu : (col.is_unique && !(kv0.2 = .vNull)) = true
            · rw [if_pos hu] at h
              rcases hf : t.find_by_index kv0.1 kv0.2 with _ | l
              · simp only [hf] at h; exact h
              · rcases l with _ | ⟨e0, es⟩
                · simp only [hf] at h; exact h
                · simp only [hf] at h
                  by_cases he : e0 ≠ rid
                  · rw [if_pos he] at h; cases h
                  · rw [if_neg he] at h; exact h
            · rw [if_neg hu] at h; exact h
          rcases List.mem_cons.1 hkv with he | he
          · subst he
            exact ⟨col, hg, Bool.eq_false_iff.mpr hpk, by cases u; exact hv⟩
          · exact ih hrest kv he

/-! ## insert_row preserves the invariant -/

theorem insert_row_cases (t : Table) (rd : List (String × Value)) :
    (t.insert_row rd).2 = t ∨
    ∃ complete, buildCompleteRow t.columns rd = .ok complete ∧
      checkPrimaryKey t complete = .ok () ∧
      (t.insert_row rd).1 = .ok t.nextRowId ∧
      (t.insert_row rd).2 = { t with
        nextRowId := t.nextRowId + 1
        rows := t.rows ++ [⟨complete, t.nextRowId⟩]
        indexes := t.indexes.map
          (fun p => (p.1, p.2.insert (rowGetD complete p.1) t.nextRowId)) } := by
  rcases h1 : checkKnownColumns t rd with e1 | u1
  · refine Or.inl ?_
    rw [Table.insert_row]
    simp only [h1]
  · rcases h2 : buildCompleteRow t.columns rd with e2 | complete
    · refine Or.inl ?_
      rw [Table.insert_row]
      simp only [h1, h2]
    · rcases h3 : checkPrimaryKey t complete with e3 | u3
      · refine Or.inl ?_
        rw [Table.insert_row]
        simp only [h1, h2, h3]
      · rcases h4 : checkUniques t complete t.columns with e4 | u4
        · refine Or.inl ?_
          rw [Table.insert_row]
          simp only [h1, h2, h3, h4]
        · refine Or.inr ⟨complete, rfl, by cases u3; exact h3, ?_, ?_⟩ <;>
          · rw [Table.insert_row]
            simp only [h1, h2, h3, h4]

theorem wf_insert_row {t : Table} (hwf : WF t) (rd : List (String × Value)) :
    WF (t.insert_row rd).2 := by
  rcases insert_row_cases t rd with he | ⟨complete, hbc, hcp, hok, he⟩
  · rw [he]; exact hwf
  · rw [he]
    obtain ⟨hceq, hval⟩ := buildCompleteRow_ok hbc
    have hkeys : complete.map Prod.fst = t.columns.map Column.name := by
      rw [hceq, List.map_map]
      rfl
    have hfresh : ∀ r ∈ t.rows, r.rid ≠ t.nextRowId :=
      fun r hr => Nat.ne_of_lt (hwf.ridsLt r hr)
    have hnotdel : t.nextRowId ∉ t.deleted := by
      intro hd
      obtain ⟨r, hr, hrid⟩ := List.mem_map.1 (hwf.deletedSub _ hd)
      exact hfresh r hr hrid
    have hslotfresh : ∀ p ∈ t.indexes, ∀ κ, t.nextRowId ∉ p.2.m κ := by
      intro p hp κ hm
      obtain ⟨r, hr, hrid, _⟩ := (hwf.idxExact p hp κ t.nextRowId).1 hm
      exact hfresh r hr hrid
    have hv0 : ∀ c ∈ t.columns.map Column.name,
        alookup complete c = some (rowGetD complete c) := by
      intro c hc
      obtain ⟨col, hcol, hname⟩ := List.mem_map.1 hc
      subst hname
      have := @alookup_complete t.columns rd col hwf.colsNodup hcol
      rw [← hceq] at this
      rw [this]
      simp [rowGetD, this]
    refine ⟨hwf.colsNodup, hwf.colsNoDot, hwf.pkCol, ?_, ?_, ?_, ?_, ?_, ?_,
      ?_, ?_, ?_, ?_⟩
    · intro r hr
      rcases List.mem_append.1 hr with hr | hr
      · exact hwf.rowsComplete r hr
      · simp only [List.mem_singleton] at hr
        subst hr
        exact hkeys
    · simp only [List.map_append, List.map_cons, List.map_nil]
      rw [List.nodup_append]
      refine ⟨hwf.ridsNodup, List.nodup_singleton _, ?_⟩
      intro a ha hb
      rw [List.mem_singleton.1 hb] at ha
      obtain ⟨r, hr, hrid⟩ := List.mem_map.1 ha
      exact hfresh r hr hrid
    · intro r hr
      rcases List.mem_append.1 hr with hr | hr
      · exact Nat.lt_trans (hwf.ridsLt r hr) (Nat.lt_succ_self _)
      · simp only [List.mem_singleton] at hr
        subst hr
        exact Nat.lt_succ_self _
    · intro d hd
      simp only [List.map_append, List.mem_append]
      exact Or.inl (hwf.deletedSub d hd)
    · intro p hp
      obtain ⟨q, hq, hqe⟩ := List.mem_map.1 hp
      subst hqe
      exact hwf.idxCols q hq
    · have : (t.indexes.map (fun p =>
          (p.1, p.2.insert (rowGetD complete p.1) t.nextRowId))).map Prod.fst
          = t.indexes.map Prod.fst := by
        rw [List.map_map]; rfl
      rw [this]
      exact hwf.idxNamesNodup
    · intro p hp κ
      obtain ⟨q, hq, hqe⟩ := List.mem_map.1 hp
      subst hqe
      simp only
      rw [HashIndex.m_insert]
      by_cases hc : rowGetD complete q.1 ≠ .vNull ∧ κ = keyOf (rowGetD complete q.1)
      · rw [if_pos hc]
        refine List.Nodup.append (hwf.idxNodup q hq κ) (List.nodup_singleton _) ?_
        intro a ha hb
        rw [List.mem_singleton.1 hb] at ha
        exact hslotfresh q hq κ ha
      · rw [if_neg hc]
        exact hwf.idxNodup q hq κ
    · intro p hp κ rid
      obtain ⟨q, hq, hqe⟩ := List.mem_map.1 hp
      subst hqe
      simp only
      rw [HashIndex.m_insert]
      have hnewclause : (∃ r, r ∈ [TableRow.mk complete t.nextRowId] ∧
          r.rid = rid ∧ rid ∉ t.deleted ∧
          ∃ u, alookup r.fields q.1 = some u ∧ u ≠ .vNull ∧ keyOf u = κ) ↔
          (t.nextRowId = rid ∧ rowGetD complete q.1 ≠ .vNull ∧
            keyOf (rowGetD complete q.1) = κ) := by
        constructor
        · rintro ⟨r, hr, hrid, hdel, u, hu, hun, hκ⟩
          rw [List.mem_singleton.1 hr] at hrid hu
          rw [hv0 q.1 (hwf.idxCols q hq)] at hu
          cases hu
          exact ⟨hrid, hun, hκ⟩
        · rintro ⟨hrid, hun, hκ⟩
          exact ⟨⟨complete, t.nextRowId⟩, List.mem_singleton_self _, hrid,
            hrid ▸ hnotdel, rowGetD complete q.1,
            hv0 q.1 (hwf.idxCols q hq), hun, hκ⟩
      by_cases hc : rowGetD complete q.1 ≠ .vNull ∧ κ = keyOf (rowGetD complete q.1)
      · rw [if_pos hc]
        constructor
        · intro hm
          rcases List.mem_append.1 hm with hm | hm
          · obtain ⟨r, hr, hcl⟩ := (hwf.idxExact q hq κ rid).1 hm
            exact ⟨r, List.mem_append_left _ hr, hcl⟩
          · rw [List.mem_singleton.1 hm] at *
            refine ⟨⟨complete, t.nextRowId⟩, List.mem_append_right _
              (List.mem_singleton_self _), rfl, hnotdel,
              rowGetD complete q.1, hv0 q.1 (hwf.idxCols q hq), hc.1, hc.2.symm⟩
        · rintro ⟨r, hr, hcl⟩
          rcases List.mem_append.1 hr with hr | hr
          · exact List.mem_append_left _
              ((hwf.idxExact q hq κ rid).2 ⟨r, hr, hcl⟩)
          · have := hnewclause.1 ⟨r, hr, hcl⟩
            exact List.mem_append_right _ (by simp [this.1])
      · rw [if_neg hc]
        constructor
        · intro hm
          obtain ⟨r, hr, hcl⟩ := (hwf.idxExact q hq κ rid).1 hm
          exact ⟨r, List.mem_append_left _ hr, hcl⟩
        · rintro ⟨r, hr, hcl⟩
          rcases List.mem_append.1 hr with hr | hr
          · exact (hwf.idxExact q hq κ rid).2 ⟨r, hr, hcl⟩
          · obtain ⟨hrid, hun, hκ⟩ := hnewclause.1 ⟨r, hr, hcl⟩
            exact absurd ⟨hun, hκ.symm⟩ hc
    · intro C hC
      have : (t.indexes.map (fun p =>
          (p.1, p.2.insert (rowGetD complete p.1) t.nextRowId))).map Prod.fst
          = t.indexes.map Prod.fst := by
        rw [List.map_map]; rfl
      rw [this]
      exact hwf.pkIndexed C hC
    · intro C hC p hp hpc κ
      obtain ⟨q, hq, hqe⟩ := List.mem_map.1 hp
      subst hqe
      simp only at hpc ⊢
      rw [HashIndex.m_insert]
      by_cases hc : rowGetD complete q.1 ≠ .vNull ∧ κ = keyOf (rowGetD complete q.1)
      · rw [if_pos hc]
        -- the primary-key pre-check guarantees the slot was empty
        rw [hpc] at hc
        have hpkt : t.primaryKey = some C := hC
        have hqC : (C, q.2) ∈ t.indexes := by
          rw [← hpc]
          exact hq
        have hfind : t.find_by_index C (rowGetD complete C) =
            some (q.2.search (rowGetD complete C)) := by
          rw [Table.find_by_index, mem_alookup_of_nodup hwf.idxNamesNodup hqC]
          rfl
        have hsearch : q.2.search (rowGetD complete C) =
            q.2.m (keyOf (rowGetD complete C)) := by
          rw [HashIndex.search, if_neg hc.1]
        simp only [checkPrimaryKey, hpkt, if_neg hc.1, hfind, hsearch] at hcp
        rcases hm : q.2.m (keyOf (rowGetD complete C)) with _ | ⟨x, xs⟩
        · rw [hc.2, hm]
          simp
        · rw [hm] at hcp
          simp at hcp
      · rw [if_neg hc]
        exact hwf.pkUnique C hC q hq hpc κ

/-! ## delete_row preserves the invariant -/

theorem rows_rid_unique {rows : List TableRow}
    (hnd : (rows.map TableRow.rid).Nodup) {r r' : TableRow}
    (h1 : r ∈ rows) (h2 : r' ∈ rows) (he : r.rid = r'.rid) : r = r' :=
  List.inj_on_of_nodup_map hnd h1 h2 he

theorem wf_delete_row {t : Table} (hwf : WF t) (rid : Nat) :
    WF (t.delete_row rid).2 := by
  rcases hf : findLive t.rows t.deleted rid with _ | ⟨⟨pre, row, post⟩⟩
  · have : (t.delete_row rid).2 = t := by
      rw [Table.delete_row]
      simp only [hf]
    rw [this]; exact hwf
  · obtain ⟨hsplit, hrid, hdel, hpre⟩ := findLive_some_spec hf
    have hrowmem : row ∈ t.rows := by rw [hsplit]; simp
    have huniq : ∀ r ∈ t.rows, r.rid = rid → r = row :=
      fun r hr hridr => rows_rid_unique hwf.ridsNodup hr hrowmem (hridr.trans hrid.symm)
    have hshape : (t.delete_row rid).2 = { t with
        deleted := rid :: t.deleted
        indexes := t.indexes.map
          (fun p => (p.1, p.2.delete (rowGetD row.fields p.1) rid)) } := by
      rw [Table.delete_row]
      simp only [hf]
    rw [hshape]
    refine ⟨hwf.colsNodup, hwf.colsNoDot, hwf.pkCol, hwf.rowsComplete,
      hwf.ridsNodup, hwf.ridsLt, ?_, ?_, ?_, ?_, ?_, ?_, ?_⟩
    · intro d hd
      rcases List.mem_cons.1 hd with he | he
      · subst he
        exact List.mem_map.2 ⟨row, hrowmem, hrid⟩
      · exact hwf.deletedSub d he
    · intro p hp
      obtain ⟨q, hq, hqe⟩ := List.mem_map.1 hp
      subst hqe
      exact hwf.idxCols q hq
    · have : (t.indexes.map (fun p =>
          (p.1, p.2.delete (rowGetD row.fields p.1) rid))).map Prod.fst
          = t.indexes.map Prod.fst := by
        rw [List.map_map]; rfl
      rw [this]
      exact hwf.idxNamesNodup
    · intro p hp κ
      obtain ⟨q, hq, hqe⟩ := List.mem_map.1 hp
      subst hqe
      simp only
      rw [HashIndex.m_delete]
      by_cases hc : rowGetD row.fields q.1 ≠ .vNull ∧ κ = keyOf (rowGetD row.fields q.1)
      · rw [if_pos hc]
        exact (hwf.idxNodup q hq κ).erase rid
      · rw [if_neg hc]
        exact hwf.idxNodup q hq κ
    · intro p hp κ rid'
      obtain ⟨q, hq, hqe⟩ := List.mem_map.1 hp
      subst hqe
      simp only
      rw [HashIndex.m_delete]
      have hnotin : ∀ κ', ¬(rowGetD row.fields q.1 ≠ .vNull ∧
          κ' = keyOf (rowGetD row.fields q.1)) → rid ∉ q.2.m κ' := by
        intro κ' hκ' hm
        obtain ⟨r, hr, hridr, hdelr, u, hu, hun, hκu⟩ :=
          (hwf.idxExact q hq κ' rid).1 hm
        have heq : r = row := huniq r hr hridr
        have hval : rowGetD row.fields q.1 = u := by
          rw [← heq]
          simp [rowGetD, hu]
        rw [hval] at hκ'
        exact hκ' ⟨hun, hκu.symm⟩
      by_cases hrr : rid' = rid
      · subst hrr
        constructor
        · intro hm
          by_cases hc : rowGetD row.fields q.1 ≠ .vNull ∧
              κ = keyOf (rowGetD row.fields q.1)
          · rw [if_pos hc] at hm
            exact absurd ((hwf.idxNodup q hq κ).mem_erase_iff.1 hm).1 (by simp)
          · rw [if_neg hc] at hm
            exact absurd hm (hnotin κ hc)
        · rintro ⟨r, hr, hridr, hdelr, _⟩
          exact absurd (List.mem_cons_self _ _) hdelr
      · have hmem_iff : rid' ∈ (if rowGetD row.fields q.1 ≠ .vNull ∧
            κ = keyOf (rowGetD row.fields q.1)
            then (q.2.m κ).erase rid else q.2.m κ) ↔ rid' ∈ q.2.m κ := by
          by_cases hc : rowGetD row.fields q.1 ≠ .vNull ∧
              κ = keyOf (rowGetD row.fields q.1)
          · rw [if_pos hc, (hwf.idxNodup q hq κ).mem_erase_iff]
            exact ⟨fun h => h.2, fun h => ⟨hrr, h⟩⟩
          · rw [if_neg hc]
        rw [hmem_iff, hwf.idxExact q hq κ rid']
        constructor
        · rintro ⟨r, hr, hridr, hdelr, hu⟩
          refine ⟨r, hr, hridr, ?_, hu⟩
          intro hmem
          rcases List.mem_cons.1 hmem with he | he
          · exact hrr he
          · exact hdelr he
        · rintro ⟨r, hr, hridr, hdelr, hu⟩
          exact ⟨r, hr, hridr, fun hmem => hdelr (List.mem_cons_of_mem _ hmem), hu⟩
    · intro C hC
      have : (t.indexes.map (fun p =>
          (p.1, p.2.delete (rowGetD row.fields p.1) rid))).map Prod.fst
          = t.indexes.map Prod.fst := by
        rw [List.map_map]; rfl
      rw [this]
      exact hwf.pkIndexed C hC
    · intro C hC p hp hpc κ
      obtain ⟨q, hq, hqe⟩ := List.mem_map.1 hp
      subst hqe
      simp only at hpc ⊢
      rw [HashIndex.m_delete]
      by_cases hc : rowGetD row.fields q.1 ≠ .vNull ∧ κ = keyOf (rowGetD row.fields q.1)
      · rw [if_pos hc]
        exact Nat.le_trans ((List.erase_sublist _ _).length_le)
          (hwf.pkUnique C hC q hq hpc κ)
      · rw [if_neg hc]
        exact hwf.pkUnique C hC q hq hpc κ

/-! ## update_row: the assignment fold in batch form -/

theorem applyUpdates_fst (old : List (String × Value)) (rid : Nat)
    (asg : List (String × Value)) (f0 : List (String × Value))
    (ix0 : List (String × HashIndex)) :
    (asg.foldl (applyOneAssignment old rid) (f0, ix0)).1 =
      asg.foldl
        (fun f kv => f.map (fun p => if p.1 = kv.1 then (p.1, kv.2) else p)) f0 := by
  induction asg generalizing f0 ix0 with
  | nil => rfl
  | cons kv rest ih =>
    simp only [List.foldl_cons]
    exact ih _ _

theorem applyUpdates_snd (old : List (String × Value)) (rid : Nat)
    (asg : List (String × Value)) (f0 : List (String × Value))
    (ix0 : List (String × HashIndex)) :
    (asg.foldl (applyOneAssignment old rid) (f0, ix0)).2 =
      asg.foldl
        (fun ix kv => ix.map (fun p =>
          if p.1 = kv.1 then (p.1, (p.2.delete (rowGetD old kv.1) rid).insert kv.2 rid)
          else p)) ix0 := by
  induction asg generalizing f0 ix0 with
  | nil => rfl
  | cons kv rest ih =>
    simp only [List.foldl_cons]
    exact ih _ _

theorem overwrite_fold (asg : List (String × Value))
    (hnd : (asg.map Prod.fst).Nodup) (f0 : List (String × Value)) :
    asg.foldl
        (fun f kv => f.map (fun p => if p.1 = kv.1 then (p.1, kv.2) else p)) f0 =
      f0.map (fun p =>
        (p.1, match alookup asg p.1 with | some nv => nv | none => p.2)) := by
  induction asg generalizing f0 with
  | nil =>
    simp only [List.foldl_nil, alookup]
    exact (List.map_id f0).symm
  | cons kv rest ih =>
    obtain ⟨k0, v0⟩ := kv
    simp only [List.map_cons, List.nodup_cons] at hnd
    simp only [List.foldl_cons]
    rw [ih hnd.2, List.map_map]
    congr 1
    funext p
    obtain ⟨pk, pv⟩ := p
    by_cases hp : pk = k0
    · subst hp
      have hnone : alookup rest pk = none := (alookup_eq_none_iff _ _).2 hnd.1
      simp [alookup, hnone]
    · simp [alookup, Ne.symm hp, hp]

theorem idxfold_batch (old : List (String × Value)) (rid : Nat)
    (asg : List (String × Value)) (hnd : (asg.map Prod.fst).Nodup)
    (ix0 : List (String × HashIndex)) :
    asg.foldl
        (fun ix kv => ix.map (fun p =>
          if p.1 = kv.1 then (p.1, (p.2.delete (rowGetD old kv.1) rid).insert kv.2 rid)
          else p)) ix0 =
      ix0.map (fun p =>
        (p.1, match alookup asg p.1 with
          | some nv => (p.2.delete (rowGetD old p.1) rid).insert nv rid
          | none => p.2)) := by
  induction asg generalizing ix0 with
  | nil =>
    simp only [List.foldl_nil, alookup]
    exact (List.map_id ix0).symm
  | cons kv rest ih =>
    obtain ⟨k0, v0⟩ := kv
    simp only [List.map_cons, List.nodup_cons] at hnd
    simp only [List.foldl_cons]
    rw [ih hnd.2, List.map_map]
    congr 1
    funext p
    obtain ⟨pk, pv⟩ := p
    by_cases hp : pk = k0
    · subst hp
      have hnone : alookup rest pk = none := (alookup_eq_none_iff _ _).2 hnd.1
      simp [alookup, hnone]
    · simp [alookup, Ne.symm hp, hp]

theorem alookup_map_pair {α β : Type} (l : List (String × α)) (g : String × α → β)
    (k : String) :
    alookup (l.map (fun p => (p.1, g p))) k =
      (alookup l k).map (fun v => g (k, v)) := by
  induction l with
  | nil => rfl
  | cons p rest ih =>
    obtain ⟨pk, pv⟩ := p
    by_cases hp : pk = k
    · subst hp
      simp [alookup]
    · simp [alookup, hp, ih]

theorem map_pair_fst {α β : Type} (l : List (String × α)) (g : String × α → β) :
    (l.map (fun p => (p.1, g p))).map Prod.fst = l.map Prod.fst := by
  rw [List.map_map]
  rfl

theorem update_row_cases (t : Table) (rid : Nat) (asg : List (String × Value)) :
    (t.update_row rid asg).2 = t ∨
    ∃ pre row post, findLive t.rows t.deleted rid = some (pre, row, post) ∧
      checkAssignments t rid asg = .ok () ∧
      (t.update_row rid asg).1 = .ok true ∧
      (t.update_row rid asg).2 = { t with
        rows := pre ++
          ⟨(asg.foldl (applyOneAssignment row.fields rid) (row.fields, t.indexes)).1,
            row.rid⟩ :: post
        indexes :=
          (asg.foldl (applyOneAssignment row.fields rid) (row.fields, t.indexes)).2 } := by
  rcases hf : findLive t.rows t.deleted rid with _ | ⟨⟨pre, row, post⟩⟩
  · refine Or.inl ?_
    rw [Table.update_row]
    simp only [hf]
  · rcases hca : checkAssignments t rid asg with e | u
    · refine Or.inl ?_
      rw [Table.update_row]
      simp only [hf, hca]
    · refine Or.inr ⟨pre, row, post, rfl, by cases u; rfl, ?_, ?_⟩ <;>
      · rw [Table.update_row]
        simp only [hf, hca]

/-! ## update_row preserves the invariant -/

theorem rid_slot_forces {t : Table} (hwf : WF t) {q : String × HashIndex}
    (hq : q ∈ t.indexes) {row : TableRow} (hrowmem : row ∈ t.rows) {rid : Nat}
    (hrid : row.rid = rid) {κ : VKey} (hm : rid ∈ q.2.m κ) :
    ∃ u, alookup row.fields q.1 = some u ∧ u ≠ .vNull ∧ keyOf u = κ := by
  obtain ⟨r, hr, hridr, hdelr, u, hu, hun, hκu⟩ := (hwf.idxExact q hq κ rid).1 hm
  have heq : r = row :=
    rows_rid_unique hwf.ridsNodup hr hrowmem (hridr.trans hrid.symm)
  subst heq
  exact ⟨u, hu, hun, hκu⟩

theorem wf_update_row {t : Table} (hwf : WF t) (rid : Nat)
    {asg : List (String × Value)} (hnd : (asg.map Prod.fst).Nodup) :
    WF (t.update_row rid asg).2 := by
  rcases update_row_cases t rid asg with he | ⟨pre, row, post, hf, hca, hok, he⟩
  · rw [he]; exact hwf
  · rw [he, applyUpdates_fst, applyUpdates_snd, overwrite_fold asg hnd,
      idxfold_batch row.fields rid asg hnd]
    obtain ⟨hsplit, hrid, hdel, hpre⟩ := findLive_some_spec hf
    have hrowmem : row ∈ t.rows := by rw [hsplit]; simp
    have hKA := checkAssignments_ok hca
    set newFields := row.fields.map (fun p =>
      (p.1, match alookup asg p.1 with | some nv => nv | none => p.2)) with hnf
    have hkeysNew : newFields.map Prod.fst = row.fields.map Prod.fst := by
      rw [hnf]
      exact map_pair_fst _ _
    have hvalNew : ∀ k, alookup newFields k = (alookup row.fields k).map
        (fun v => match alookup asg k with | some nv => nv | none => v) := by
      intro k
      rw [hnf]
      exact alookup_map_pair row.fields
        (fun p => match alookup asg p.1 with | some nv => nv | none => p.2) k
    have hridmap : (pre ++ TableRow.mk newFields row.rid :: post).map TableRow.rid
        = t.rows.map TableRow.rid := by
      rw [hsplit]
      simp
    have hexists_iff : ∀ (P : TableRow → Prop),
        (P ⟨newFields, row.rid⟩ ↔ P row) →
        ((∃ r ∈ pre ++ TableRow.mk newFields row.rid :: post, P r) ↔
          (∃ r ∈ t.rows, P r)) := by
      intro P hP
      rw [hsplit]
      constructor
      · rintro ⟨r, hr, hPr⟩
        rcases List.mem_append.1 hr with h | h
        · exact ⟨r, List.mem_append_left _ h, hPr⟩
        · rcases List.mem_cons.1 h with h | h
          · subst h
            exact ⟨row, List.mem_append_right _ (List.mem_cons_self _ _), hP.1 hPr⟩
          · exact ⟨r, List.mem_append_right _ (List.mem_cons_of_mem _ h), hPr⟩
      · rintro ⟨r, hr, hPr⟩
        rcases List.mem_append.1 hr with h | h
        · exact ⟨r, List.mem_append_left _ h, hPr⟩
        · rcases List.mem_cons.1 h with h | h
          · exact ⟨TableRow.mk newFields row.rid,
              List.mem_append_right _ (List.mem_cons_self _ _), hP.2 (h ▸ hPr)⟩
          · exact ⟨r, List.mem_append_right _ (List.mem_cons_of_mem _ h), hPr⟩
    refine ⟨hwf.colsNodup, hwf.colsNoDot, hwf.pkCol, ?_, ?_, ?_, ?_, ?_, ?_,
      ?_, ?_, ?_, ?_⟩
    · intro r hr
      rcases List.mem_append.1 hr with h | h
      · exact hwf.rowsComplete r (by rw [hsplit]; exact List.mem_append_left _ h)
      · rcases List.mem_cons.1 h with h | h
        · subst h
          exact hkeysNew.trans (hwf.rowsComplete row hrowmem)
        · exact hwf.rowsComplete r (by
            rw [hsplit]
            exact List.mem_append_right _ (List.mem_cons_of_mem _ h))
    · rw [hridmap]; exact hwf.ridsNodup
    · intro r hr
      rcases List.mem_append.1 hr with h | h
      · exact hwf.ridsLt r (by rw [hsplit]; exact List.mem_append_left _ h)
      · rcases List.mem_cons.1 h with h | h
        · subst h
          exact hwf.ridsLt row hrowmem
        · exact hwf.ridsLt r (by
            rw [hsplit]
            exact List.mem_append_right _ (List.mem_cons_of_mem _ h))
    · intro d hd
      rw [hridmap]
      exact hwf.deletedSub d hd
    · intro p hp
      obtain ⟨q, hq, hqe⟩ := List.mem_map.1 hp
      subst hqe
      exact hwf.idxCols q hq
    · rw [map_pair_fst]
      exact hwf.idxNamesNodup
    · intro p hp κ
      obtain ⟨q, hq, hqe⟩ := List.mem_map.1 hp
      subst hqe
      simp only
      rcases ha : alookup asg q.1 with _ | nv
      · exact hwf.idxNodup q hq κ
      · rw [HashIndex.m_insert, HashIndex.m_delete]
        have hdelslot : ∀ b : List Nat, b = (if rowGetD row.fields q.1 ≠ .vNull ∧
            κ = keyOf (rowGetD row.fields q.1) then (q.2.m κ).erase rid else q.2.m κ) →
            b.Nodup ∧ rid ∉ b := by
          rintro b rfl
          by_cases hc : rowGetD row.fields q.1 ≠ .vNull ∧
              κ = keyOf (rowGetD row.fields q.1)
          · rw [if_pos hc]
            refine ⟨(hwf.idxNodup q hq κ).erase rid, ?_⟩
            intro hmem
            exact absurd ((hwf.idxNodup q hq κ).mem_erase_iff.1 hmem).1 (by simp)
          · rw [if_neg hc]
            refine ⟨hwf.idxNodup q hq κ, ?_⟩
            intro hmem
            obtain ⟨u, hu, hun, hκu⟩ := rid_slot_forces hwf hq hrowmem hrid hmem
            rw [show rowGetD row.fields q.1 = u from by simp [rowGetD, hu]] at hc
            exact hc ⟨hun, hκu.symm⟩
        obtain ⟨hbn, hbr⟩ := hdelslot _ rfl
        by_cases hi : nv ≠ .vNull ∧ κ = keyOf nv
        · rw [if_pos hi]
          refine List.Nodup.append hbn (List.nodup_singleton _) ?_
          intro a haa hbb
          rw [List.mem_singleton.1 hbb] at haa
          exact hbr haa
        · rw [if_neg hi]
          exact hbn
    · intro p hp κ rid'
      obtain ⟨q, hq, hqe⟩ := List.mem_map.1 hp
      subst hqe
      simp only
      have hndrids := hwf.ridsNodup
      rw [hsplit] at hndrids
      simp only [List.map_append, List.map_cons] at hndrids
      rw [List.nodup_append] at hndrids
      rcases ha : alookup asg q.1 with _ | nv
      · -- this column is not assigned: its index entry and row value are unchanged
        have hvalSame : alookup newFields q.1 = alookup row.fields q.1 := by
          rw [hvalNew]
          rcases alookup row.fields q.1 with _ | u <;> simp [ha]
        rw [hwf.idxExact q hq κ rid']
        exact (hexists_iff _ (by
          constructor
          · rintro ⟨h1, h2, u, hu, hrest⟩
            exact ⟨h1, h2, u, by rw [← hvalSame]; exact hu, hrest⟩
          · rintro ⟨h1, h2, u, hu, hrest⟩
            exact ⟨h1, h2, u, by rw [hvalSame]; exact hu, hrest⟩)).symm
      · -- assigned column: the index moves the row id from the old key to nv
        have hq1mem : q.1 ∈ row.fields.map Prod.fst :=
          (hwf.rowsComplete row hrowmem) ▸ hwf.idxCols q hq
        obtain ⟨u0, hu0⟩ : ∃ u0, alookup row.fields q.1 = some u0 := by
          rcases hx : alookup row.fields q.1 with _ | u0
          · exact absurd (alookup_isSome_of_mem_keys hq1mem) (by simp [hx])
          · exact ⟨u0, rfl⟩
        have hrgd : rowGetD row.fields q.1 = u0 := by simp [rowGetD, hu0]
        have hnewval : alookup newFields q.1 = some nv := by
          rw [hvalNew, hu0]
          simp [ha]
        rw [HashIndex.m_insert, HashIndex.m_delete]
        by_cases hrr : rid' = rid
        · subst hrr
          have hLHS : rid' ∈ (if nv ≠ .vNull ∧ κ = keyOf nv then
              (if rowGetD row.fields q.1 ≠ .vNull ∧
                κ = keyOf (rowGetD row.fields q.1) then (q.2.m κ).erase rid'
               else q.2.m κ) ++ [rid']
              else (if rowGetD row.fields q.1 ≠ .vNull ∧
                κ = keyOf (rowGetD row.fields q.1) then (q.2.m κ).erase rid'
               else q.2.m κ)) ↔ (nv ≠ .vNull ∧ κ = keyOf nv) := by
            constructor
            · intro hmem
              by_cases hi : nv ≠ .vNull ∧ κ = keyOf nv
              · exact hi
              · rw [if_neg hi] at hmem
                by_cases hc : rowGetD row.fields q.1 ≠ .vNull ∧
                    κ = keyOf (rowGetD row.fields q.1)
                · rw [if_pos hc] at hmem
                  exact absurd ((hwf.idxNodup q hq κ).mem_erase_iff.1 hmem).1
                    (by simp)
                · rw [if_neg hc] at hmem
                  obtain ⟨u, hu, hun, hκu⟩ :=
                    rid_slot_forces hwf hq hrowmem hrid hmem
                  rw [hu0] at hu
                  cases hu
                  rw [hrgd] at hc
                  exact absurd ⟨hun, hκu.symm⟩ hc
            · intro hi
              rw [if_pos hi]
              exact List.mem_append_right _ (List.mem_singleton_self _)
          rw [hLHS]
          constructor
          · intro hi
            exact ⟨TableRow.mk newFields row.rid, List.mem_append_right _
              (List.mem_cons_self _ _), hrid, hdel, nv, hnewval, hi.1, hi.2.symm⟩
          · rintro ⟨r, hr, hridr, hdelr, u, hu, hun, hκu⟩
            rcases List.mem_append.1 hr with h | h
            · exact absurd (hridr ▸ List.mem_map.2 ⟨r, h, rfl⟩ :
                rid' ∈ pre.map TableRow.rid)
                (by
                  intro hc
                  exact hndrids.2.2 (hrid.symm ▸ hc) (List.mem_cons_self _ _))
            · rcases List.mem_cons.1 h with h | h
              · subst h
                rw [hnewval] at hu
                cases hu
                exact ⟨hun, hκu.symm⟩
              · have : rid' ∈ post.map TableRow.rid := hridr ▸ List.mem_map.2 ⟨r, h, rfl⟩
                rw [List.nodup_cons] at hndrids
                exact absurd (hrid ▸ this) (by
                  have := hndrids.2.1.1
                  simpa using this)
        · -- a different row id is untouched by the delete/insert pair
          have hLHSiff : rid' ∈ (if nv ≠ .vNull ∧ κ = keyOf nv then
              (if rowGetD row.fields q.1 ≠ .vNull ∧
                κ = keyOf (rowGetD row.fields q.1) then (q.2.m κ).erase rid
               else q.2.m κ) ++ [rid]
              else (if rowGetD row.fields q.1 ≠ .vNull ∧
                κ = keyOf (rowGetD row.fields q.1) then (q.2.m κ).erase rid
               else q.2.m κ)) ↔ rid' ∈ q.2.m κ := by
            have herase : rid' ∈ (q.2.m κ).erase rid ↔ rid' ∈ q.2.m κ := by
              rw [(hwf.idxNodup q hq κ).mem_erase_iff]
              exact ⟨fun h => h.2, fun h => ⟨hrr, h⟩⟩
            by_cases hi : nv ≠ .vNull ∧ κ = keyOf nv
            · rw [if_pos hi]
              rw [List.mem_append, List.mem_singleton]
              by_cases hc : rowGetD row.fields q.1 ≠ .vNull ∧
                  κ = keyOf (rowGetD row.fields q.1)
              · rw [if_pos hc, herase]
                exact ⟨fun h => h.elim id (fun h => absurd h hrr),
                  fun h => Or.inl h⟩
              · rw [if_neg hc]
                exact ⟨fun h => h.elim id (fun h => absurd h hrr),
                  fun h => Or.inl h⟩
            · rw [if_neg hi]
              by_cases hc : rowGetD row.fields q.1 ≠ .vNull ∧
                  κ = keyOf (rowGetD row.fields q.1)
              · rw [if_pos hc, herase]
              · rw [if_neg hc]
          rw [hLHSiff, hwf.idxExact q hq κ rid']
          refine (hexists_iff _ ?_).symm
          constructor
          · rintro ⟨h1, _⟩
            exact absurd (hrid.symm.trans h1).symm hrr
          · rintro ⟨h1, _⟩
            exact absurd (hrid.symm.trans h1).symm hrr
    · rw [map_pair_fst]
      intro C hC
      exact hwf.pkIndexed C hC
    · intro C hC p hp hpc κ
      obtain ⟨q, hq, hqe⟩ := List.mem_map.1 hp
      subst hqe
      have hqc : q.1 = C := hpc
      rcases ha : alookup asg q.1 with _ | nv
      · simp only [ha]
        exact hwf.pkUnique C hC q hq hqc κ
      · -- the primary key column is never assigned
        obtain ⟨col, hcol, hnotpk, _⟩ := hKA (q.1, nv) (alookup_mem ha)
        obtain ⟨pkcol, hpkmem, hpkname, hpkpk⟩ := hwf.pkCol C hC
        have : t.getCol q.1 = some pkcol := by
          rw [hqc, ← hpkname]
          exact getCol_name_eq hwf.colsNodup hpkmem
        rw [this] at hcol
        cases hcol
        rw [Column.is_primary_key, hpkpk] at hnotpk
        cases hnotpk

/-! ## Invariant along operation sequences -/

theorem wf_applyOp {t : Table} (hwf : WF t) {op : TableOp} (hop : opWF op) :
    WF (applyOp t op) := by
  cases op with
  | insert rd => exact wf_insert_row hwf rd
  | update rid asg => exact wf_update_row hwf rid hop
  | delete rid => exact wf_delete_row hwf rid
  | createIndex c => exact wf_create_index hwf c

theorem wf_runOps {t : Table} (hwf : WF t) {ops : List TableOp}
    (hops : ∀ op ∈ ops, opWF op) : WF (runOps t ops) := by
  induction ops generalizing t with
  | nil => exact hwf
  | cons op rest ih =>
    exact ih (wf_applyOp hwf (hops op (List.mem_cons_self _ _)))
      (fun o ho => hops o (List.mem_cons_of_mem _ ho))

theorem deleted_mono_applyOp (t : Table) (op : TableOp) :
    ∀ d ∈ t.deleted, d ∈ (applyOp t op).deleted := by
  intro d hd
  cases op with
  | insert rd =>
    rcases insert_row_cases t rd with he | ⟨complete, _, _, _, he⟩
    · rw [applyOp, he]; exact hd
    · rw [applyOp, he]; exact hd
  | update rid asg =>
    rcases update_row_cases t rid asg with he | ⟨pre, row, post, _, _, _, he⟩
    · rw [applyOp, he]; exact hd
    · rw [applyOp, he]; exact hd
  | delete rid =>
    rw [applyOp, Table.delete_row]
    rcases hf : findLive t.rows t.deleted rid with _ | ⟨⟨pre, row, post⟩⟩
    · exact hd
    · exact List.mem_cons_of_mem _ hd
  | createIndex c =>
    rw [applyOp, (create_index_proj t c).2.2.2.2.2]
    exact hd

theorem deleted_mono_runOps (t : Table) (ops : List TableOp) :
    ∀ d ∈ t.deleted, d ∈ (runOps t ops).deleted := by
  induction ops generalizing t with
  | nil => exact fun d hd => hd
  | cons op rest ih =>
    exact fun d hd => ih (applyOp t op) d (deleted_mono_applyOp t op d hd)

/-! ## Planner refinement: helper lemmas -/

/-- Boolean form of "the evaluator accepts this row". -/
def evalT (cond : Condition) (row : RowMap) : Bool :=
  match evaluate cond row with
  | .ok true => true
  | _ => false

/-- Result equivalence up to row order: equal errors, or permuted rows. -/
def ExceptPerm (a b : Except RdbmsError (List RowMap)) : Prop :=
  match a, b with
  | .ok x, .ok y => x.Perm y
  | .error e, .error f => e = f
  | _, _ => False

theorem exceptPerm_refl (a : Except RdbmsError (List RowMap)) : ExceptPerm a a := by
  cases a with
  | error e => exact rfl
  | ok x => exact List.Perm.refl x

theorem pyEq_symm (a b : Value) : pyEq a b = pyEq b a := by
  rw [pyEq, pyEq]
  by_cases h : keyOf a = keyOf b
  · rw [decide_eq_true h, decide_eq_true h.symm]
  · rw [decide_eq_false h, decide_eq_false (fun he => h he.symm)]

theorem pyEq_null_right {v : Value} (h : v ≠ .vNull) (u : Value) (hu : u = .vNull) :
    pyEq u v = false := by
  subst hu
  rw [pyEq]
  simp [show keyOf Value.vNull = VKey.null from rfl]
  intro hc
  exact absurd (eq_null_of_keyOf_null hc.symm) h

theorem qualified_has_dot (tn c : String) : '.' ∈ (tn ++ "." ++ c).data := by
  rw [String.data_append, String.data_append]
  simp only [List.mem_append]
  exact Or.inl (Or.inr (by decide))

theorem get_column_value_bare {row : RowMap} (c : String) (tq : Option String)
    (hnodot : ∀ k ∈ row.map Prod.fst, '.' ∉ k.data) :
    get_column_value row c tq = alookup row c := by
  cases tq with
  | none => rfl
  | some tn =>
    have hnone : alookup row (tn ++ "." ++ c) = none := by
      rw [alookup_eq_none_iff]
      intro hmem
      exact hnodot _ hmem (qualified_has_dot tn c)
    rw [get_column_value, hnone]

/-- On a row that resolves the column to `u`, the equality comparison
    with a non-null literal evaluates (without error) to the Python
    equality of `u` and the literal. -/
theorem evaluate_eq_col_lit {row : RowMap} {c : String} (tq : Option String)
    {u v : Value} (hu : alookup row c = some u) (hv : v ≠ .vNull)
    (hnodot : ∀ k ∈ row.map Prod.fst, '.' ∉ k.data) :
    evaluate (.comparison (.columnRef c tq) .EQ (.literal v)) row = .ok (pyEq u v) := by
  have hb : get_column_value row c tq = some u := by
    rw [get_column_value_bare c tq hnodot, hu]
  simp only [evaluate, getValue, hb]
  by_cases hun : u = .vNull
  · rw [if_pos (Or.inl hun), if_neg (show ¬(ComparisonOp.EQ = ComparisonOp.NE)
      from by decide), pyEq_null_right hv u hun]
  · rw [if_neg (by
      rintro (h | h)
      · exact hun h
      · exact hv h)]
    rfl

theorem evaluate_eq_lit_col {row : RowMap} {c : String} (tq : Option String)
    {u v : Value} (hu : alookup row c = some u) (hv : v ≠ .vNull)
    (hnodot : ∀ k ∈ row.map Prod.fst, '.' ∉ k.data) :
    evaluate (.comparison (.literal v) .EQ (.columnRef c tq)) row = .ok (pyEq u v) := by
  have hb : get_column_value row c tq = some u := by
    rw [get_column_value_bare c tq hnodot, hu]
  simp only [evaluate, getValue, hb]
  by_cases hun : u = .vNull
  · rw [if_pos (Or.inr hun), if_neg (show ¬(ComparisonOp.EQ = ComparisonOp.NE)
      from by decide), pyEq_null_right hv u hun]
  · rw [if_neg (by
      rintro (h | h)
      · exact hv h
      · exact hun h)]
    show Except.ok (pyEq v u) = Except.ok (pyEq u v)
    rw [pyEq_symm]

theorem filterMatching_ok {cond : Condition} {rows : List RowMap}
    (h : ∀ r ∈ rows, ∃ b, evaluate cond r = .ok b) :
    filterMatching cond rows = .ok (rows.filter (evalT cond)) := by
  induction rows with
  | nil => rfl
  | cons r rest ih =>
    obtain ⟨b, hb⟩ := h r (List.mem_cons_self _ _)
    rw [filterMatching, hb, ih (fun r' hr' => h r' (List.mem_cons_of_mem _ hr'))]
    cases b with
    | true => simp [List.filter_cons, evalT, hb]
    | false => simp [List.filter_cons, evalT, hb]

theorem find_index_opportunity_inv {t : Table} {cond : Condition} {c : String}
    {v : Value} (h : find_index_opportunity t cond = (some c, some v)) :
    t.has_index c ∧
    ((∃ tq, cond = .comparison (.columnRef c tq) .EQ (.literal v)) ∨
     (∃ tq, cond = .comparison (.literal v) .EQ (.columnRef c tq))) := by
  cases cond with
  | logical l op r => simp [find_index_opportunity] at h
  | comparison left op right =>
    cases left with
    | columnRef cn tq =>
      cases right with
      | literal lv =>
        cases op with
        | EQ =>
          by_cases hi : t.has_index cn
          · simp only [find_index_opportunity, if_pos hi, Prod.mk.injEq,
              Option.some.injEq] at h
            obtain ⟨h1, h2⟩ := h
            subst h1; subst h2
            exact ⟨hi, Or.inl ⟨tq, rfl⟩⟩
          · simp [find_index_opportunity, if_neg hi] at h
        | NE => simp [find_index_opportunity] at h
        | LT => simp [find_index_opportunity] at h
        | GT => simp [find_index_opportunity] at h
        | LTE => simp [find_index_opportunity] at h
        | GTE => simp [find_index_opportunity] at h
      | columnRef cn2 tq2 => simp [find_index_opportunity] at h
    | literal lv =>
      cases right with
      | columnRef cn tq =>
        cases op with
        | EQ =>
          by_cases hi : t.has_index cn
          · simp only [find_index_opportunity, if_pos hi, Prod.mk.injEq,
              Option.some.injEq] at h
            obtain ⟨h1, h2⟩ := h
            subst h1; subst h2
            exact ⟨hi, Or.inr ⟨tq, rfl⟩⟩
          · simp [find_index_opportunity, if_neg hi] at h
        | NE => simp [find_index_opportunity] at h
        | LT => simp [find_index_opportunity] at h
        | GT => simp [find_index_opportunity] at h
        | LTE => simp [find_index_opportunity] at h
        | GTE => simp [find_index_opportunity] at h
      | literal lv2 => simp [find_index_opportunity] at h

theorem get_row_of_mem {t : Table} (hwf : WF t) {r : TableRow} (hr : r ∈ t.rows)
    (hlive : r.rid ∉ t.deleted) : t.get_row r.rid = some r.fields := by
  obtain ⟨p, s, hps⟩ := findLive_mem hr rfl hlive hwf.ridsNodup
  rw [Table.get_row, hps]
  rfl

theorem filterMap_eq_map_of {α β : Type} {l : List α} {f : α → Option β} {g : α → β}
    (h : ∀ a ∈ l, f a = some (g a)) : l.filterMap f = l.map g := by
  induction l with
  | nil => rfl
  | cons a rest ih =>
    rw [List.filterMap_cons, h a (List.mem_cons_self _ _), List.map_cons,
      ih (fun a' ha' => h a' (List.mem_cons_of_mem _ ha'))]

/-- The planner's matching rows are, up to order, exactly a full scan
    filtered through the evaluator (same error when either errors). -/
theorem get_matching_rows_refines {t : Table} (hwf : WF t) (w : Option Condition) :
    ExceptPerm (get_matching_rows t w) (fullScanMatching t w) := by
  cases w with
  | none => exact exceptPerm_refl _
  | some cond =>
    rw [get_matching_rows, fullScanMatching]
    rcases hfi : find_index_opportunity t cond with ⟨oc, ov⟩
    rcases oc with _ | c
    · have hc : get_candidate_rows t cond = t.scan := by
        simp only [get_candidate_rows, hfi]
      rw [hc]
      exact exceptPerm_refl _
    · rcases ov with _ | v
      · have hc : get_candidate_rows t cond = t.scan := by
          simp only [get_candidate_rows, hfi]
        rw [hc]
        exact exceptPerm_refl _
      · by_cases hv : v ≠ .vNull
        · rcases hgx : t.get_index c with _ | idx
          · have hc : get_candidate_rows t cond = t.scan := by
              simp only [get_candidate_rows, hfi, if_pos hv, hgx]
            rw [hc]
            exact exceptPerm_refl _
          · have hc : get_candidate_rows t cond =
                (idx.search v).filterMap t.get_row := by
              simp only [get_candidate_rows, hfi, if_pos hv, hgx]
            rw [hc]
            obtain ⟨hhas, hshape⟩ := find_index_opportunity_inv hfi
            have hqmem : (c, idx) ∈ t.indexes := alookup_mem hgx
            have hcmem : c ∈ t.columns.map Column.name := hwf.idxCols (c, idx) hqmem
            have hnodotcols : ∀ k ∈ t.columns.map Column.name, '.' ∉ k.data := by
              intro k hk
              obtain ⟨col, hcol, he⟩ := List.mem_map.1 hk
              subst he
              exact hwf.colsNoDot col hcol
            -- every schema-complete row evaluates the predicate without error
            have heval : ∀ r ∈ t.rows, ∃ u, alookup r.fields c = some u ∧
                evaluate cond r.fields = .ok (pyEq u v) := by
              intro r hr
              have hkeys := hwf.rowsComplete r hr
              obtain ⟨u, hu⟩ : ∃ u, alookup r.fields c = some u := by
                rcases hx : alookup r.fields c with _ | u
                · exact absurd (alookup_isSome_of_mem_keys (hkeys ▸ hcmem))
                    (by simp [hx])
                · exact ⟨u, rfl⟩
              have hnodotrow : ∀ k ∈ r.fields.map Prod.fst, '.' ∉ k.data := by
                rw [hkeys]
                exact hnodotcols
              rcases hshape with ⟨tq, he⟩ | ⟨tq, he⟩
              · subst he
                exact ⟨u, hu, evaluate_eq_col_lit tq hu (by simpa using hv) hnodotrow⟩
              · subst he
                exact ⟨u, hu, evaluate_eq_lit_col tq hu (by simpa using hv) hnodotrow⟩
            have hL : idx.search v = idx.m (keyOf v) := by
              rw [HashIndex.search, if_neg (by simpa using hv)]
            -- candidate rows are exactly the live rows matching the key
            have hgetrow : ∀ rid ∈ idx.m (keyOf v), ∃ r ∈ t.rows,
                r.rid = rid ∧ rid ∉ t.deleted ∧ t.get_row rid = some r.fields ∧
                evalT cond r.fields = true := by
              intro rid hrid
              obtain ⟨r, hr, hride, hdel, u, hu, hun, hκ⟩ :=
                (hwf.idxExact (c, idx) hqmem (keyOf v) rid).1 hrid
              obtain ⟨u', hu', heval'⟩ := heval r hr
              rw [hu] at hu'
              cases hu'
              refine ⟨r, hr, hride, hdel, hride ▸ get_row_of_mem hwf hr
                (hride ▸ hdel), ?_⟩
              rw [evalT, heval']
              rw [show pyEq u v = true from decide_eq_true hκ]
            set M := t.rows.filter
              (fun r => decide (r.rid ∉ t.deleted) && evalT cond r.fields) with hM
            have hMsub : M.Sublist t.rows := List.filter_sublist t.rows
            have hMnd : (M.map TableRow.rid).Nodup :=
              hwf.ridsNodup.sublist (hMsub.map TableRow.rid)
            have hmemiff : ∀ rid, rid ∈ idx.m (keyOf v) ↔
                rid ∈ M.map TableRow.rid := by
              intro rid
              constructor
              · intro hrid
                obtain ⟨r, hr, hride, hdel, _, hT⟩ := hgetrow rid hrid
                refine List.mem_map.2 ⟨r, ?_, hride⟩
                rw [hM, List.mem_filter]
                refine ⟨hr, ?_⟩
                rw [Bool.and_eq_true, decide_eq_true_eq]
                exact ⟨by rw [hride]; exact hdel, hT⟩
              · intro hrid
                obtain ⟨r, hr, hride⟩ := List.mem_map.1 hrid
                rw [hM, List.mem_filter] at hr
                obtain ⟨hrmem, hcondr⟩ := hr
                rw [Bool.and_eq_true, decide_eq_true_eq] at hcondr
                obtain ⟨u, hu, heval'⟩ := heval r hrmem
                have hT := hcondr.2
                rw [evalT, heval'] at hT
                have hpy : pyEq u v = true := by
                  rcases hb : pyEq u v
                  · rw [hb] at hT; cases hT
                  · rfl
                have hκu : keyOf u = keyOf v := of_decide_eq_true hpy
                refine (hwf.idxExact (c, idx) hqmem (keyOf v) rid).2
                  ⟨r, hrmem, hride, hride ▸ hcondr.1, u, hu, ?_, hκu⟩
                intro hnull
                subst hnull
                exact hv (eq_null_of_keyOf_null hκu.symm)
            have hperm : (idx.m (keyOf v)).Perm (M.map TableRow.rid) := by
              refine List.perm_of_nodup_nodup_toFinset_eq
                (hwf.idxNodup (c, idx) hqmem (keyOf v)) hMnd ?_
              ext rid
              rw [List.mem_toFinset, List.mem_toFinset]
              exact hmemiff rid
            have hcandeq : (idx.search v).filterMap t.get_row =
                ((idx.m (keyOf v)).filterMap t.get_row) := by rw [hL]
            -- both branches of the planner produce ok-results
            have hcand_ok : filterMatching cond ((idx.search v).filterMap t.get_row)
                = .ok ((idx.search v).filterMap t.get_row) := by
              have htot : ∀ rmap ∈ (idx.search v).filterMap t.get_row,
                  evaluate cond rmap = .ok true := by
                intro rmap hrmap
                obtain ⟨rid, hridm, hget⟩ := List.mem_filterMap.1 hrmap
                rw [hL] at hridm
                obtain ⟨r, hr, hride, hdel, hget', hT⟩ := hgetrow rid hridm
                rw [hget'] at hget
                cases hget
                rcases hx : evaluate cond r.fields with e | b
                · rw [evalT, hx] at hT; cases hT
                · rcases b with _ | _
                  · rw [evalT, hx] at hT; cases hT
                  · rfl
              rw [filterMatching_ok (fun r hr => ⟨true, htot r hr⟩)]
              rw [List.filter_eq_self.2 (fun rmap hrmap => by
                rw [evalT, htot rmap hrmap])]
            have hscan_ok : filterMatching cond t.scan
                = .ok (t.scan.filter (evalT cond)) := by
              refine filterMatching_ok ?_
              intro rmap hrmap
              rw [Table.scan] at hrmap
              obtain ⟨r, hr, he⟩ := List.mem_map.1 hrmap
              subst he
              obtain ⟨u, _, heval'⟩ := heval r (List.mem_filter.1 hr).1
              exact ⟨pyEq u v, heval'⟩
            rw [hcand_ok, hscan_ok]
            show ((idx.search v).filterMap t.get_row).Perm (t.scan.filter (evalT cond))
            have hscan_filter : t.scan.filter (evalT cond) = M.map TableRow.fields := by
              rw [Table.scan, List.filter_map TableRow.fields, List.filter_filter,
                hM]
              congr 1
              refine List.filter_congr ?_
              intro r hr
              exact Bool.and_comm _ _
            have h2 : (M.map TableRow.rid).filterMap t.get_row =
                M.map TableRow.fields := by
              rw [List.filterMap_map]
              refine filterMap_eq_map_of ?_
              intro r hr
              rw [hM, List.mem_filter, Bool.and_eq_true, decide_eq_true_eq] at hr
              exact get_row_of_mem hwf hr.1 hr.2.1
            rw [hscan_filter, hL, ← h2]
            exact hperm.filterMap t.get_row
        · push_neg at hv
          have hc : get_candidate_rows t cond = t.scan := by
            simp [get_candidate_rows, hfi, hv]
          rw [hc]
          exact exceptPerm_refl _

/-! ## Column-not-found behaviour of the evaluator -/

/-- An expression whose column reference does not resolve in the row. -/
def exprMissing (e : Expr) (row : RowMap) : Bool :=
  match e with
  | .columnRef c tn => (get_column_value row c tn).isNone
  | .literal _ => false

/-- Evaluation reaches a column reference that is absent from the row:
    both operands of a reached comparison count as reached; the right
    side of a logical node is reached only when the left side evaluates
    and fails to determine the result. -/
def reachesMissing : Condition → RowMap → Bool
  | .comparison l _ r, row => exprMissing l row || exprMissing r row
  | .logical l op r, row =>
    reachesMissing l row ||
      match evaluate l row, op with
      | .ok true, .AND => reachesMissing r row
      | .ok false, .OR => reachesMissing r row
      | _, _ => false

/-- Did evaluation raise `ColumnNotFoundError`? -/
def isColNotFound : Except RdbmsError Bool → Bool
  | .error (.columnNotFound _ _) => true
  | _ => false

theorem getValue_cases (e : Expr) (row : RowMap) :
    (∃ v, getValue e row = .ok v ∧ exprMissing e row = false) ∨
    (∃ c, getValue e row = .error (.columnNotFound c none) ∧
      exprMissing e row = true) := by
  cases e with
  | literal v => exact Or.inl ⟨v, rfl, rfl⟩
  | columnRef c tn =>
    rcases hg : get_column_value row c tn with _ | v
    · refine Or.inr ⟨c, ?_, ?_⟩
      · rw [getValue, hg]
      · rw [exprMissing, hg]
        rfl
    · refine Or.inl ⟨v, ?_, ?_⟩
      · rw [getValue, hg]
      · rw [exprMissing, hg]
        rfl

theorem applyCompOp_not_colNotFound (op : ComparisonOp) (l r : Value) :
    isColNotFound (applyCompOp op l r) = false := by
  cases op with
  | EQ => rfl
  | NE => rfl
  | LT =>
    rw [applyCompOp]
    rcases pyLt l r with _ | b
    · rfl
    · rfl
  | GT =>
    rw [applyCompOp]
    rcases pyLt r l with _ | b
    · rfl
    · rfl
  | LTE =>
    rw [applyCompOp]
    rcases pyLe l r with _ | b
    · rfl
    · rfl
  | GTE =>
    rw [applyCompOp]
    rcases pyLe r l with _ | b
    · rfl
    · rfl

/-- The evaluator raises column-not-found exactly when it reaches a
    column reference that is absent from the row. -/
theorem evaluate_colNotFound_iff (P : Condition) (row : RowMap) :
    isColNotFound (evaluate P row) = reachesMissing P row := by
  induction P with
  | comparison l op r =>
    rcases getValue_cases l row with ⟨lv, hl, hml⟩ | ⟨cl, hl, hml⟩
    · rcases getValue_cases r row with ⟨rv, hr, hmr⟩ | ⟨cr, hr, hmr⟩
      · simp only [evaluate, hl, hr, reachesMissing, hml, hmr, Bool.or_self]
        by_cases hnull : lv = .vNull ∨ rv = .vNull
        · rw [if_pos hnull]
          by_cases hne : op = ComparisonOp.NE
          · rw [if_pos hne]; rfl
          · rw [if_neg hne]; rfl
        · rw [if_neg hnull]
          exact applyCompOp_not_colNotFound op lv rv
      · simp only [evaluate, hl, hr, reachesMissing, hml, hmr]
        rfl
    · rcases getValue_cases r row with ⟨rv, hr, hmr⟩ | ⟨cr, hr, hmr⟩ <;>
      · simp only [evaluate, hl, reachesMissing, hml]
        rfl
  | logical l op r ihl ihr =>
    rcases hx : evaluate l row with e | b
    · rw [hx] at ihl
      simp only [evaluate, hx, reachesMissing, ← ihl]
      cases op <;> simp [isColNotFound]
    · rw [hx] at ihl
      have hl0 : reachesMissing l row = false := ihl.symm
      cases op with
      | AND =>
        cases b with
        | true =>
          simp only [evaluate, hx, reachesMissing, hl0, Bool.false_or,
            Bool.not_true, if_neg (by simp : ¬(!true) = true)]
          exact ihr
        | false =>
          simp only [evaluate, hx, reachesMissing, hl0, Bool.false_or]
          rfl
      | OR =>
        cases b with
        | true =>
          simp only [evaluate, hx, reachesMissing, hl0, Bool.false_or]
          rfl
        | false =>
          simp only [evaluate, hx, reachesMissing, hl0, Bool.false_or]
          exact ihr

/-- Decidable equality of `Except` results, for concrete evaluation in
    witnesses. -/
instance {ε α : Type} [DecidableEq ε] [DecidableEq α] :
    DecidableEq (Except ε α) := fun x y =>
  match x, y with
  | .error e, .error f =>
    if h : e = f then isTrue (by rw [h])
    else isFalse (by intro hc; cases hc; exact h rfl)
  | .ok a, .ok b =>
    if h : a = b then isTrue (by rw [h])
    else isFalse (by intro hc; cases hc; exact h rfl)
  | .error _, .ok _ => isFalse (by intro hc; cases hc)
  | .ok _, .error _ => isFalse (by intro hc; cases hc)

/-! ## Concrete tables for witnesses -/

/-- Fallback table used only to destructure `Except` results of
    `mkTable` on concrete inputs that are known to succeed. -/
def emptyTableStub : Table :=
  { name := "", columns := [], primaryKey := none, rows := [], nextRowId := 0,
    deleted := [], indexes := [] }

def tableOfOk (x : Except RdbmsError Table) : Table :=
  match x with
  | .ok t => t
  | .error _ => emptyTableStub

/-- One NOT NULL INTEGER column. -/
def wCols3 : List Column := [{ name := "x", dataType := .INTEGER, nn := true }]

def wT3 : Table := tableOfOk (mkTable "t3" wCols3)

/-- One plain INTEGER column, with one row `x = 1` inserted. -/
def wCols10 : List Column := [{ name := "x", dataType := .INTEGER }]

def wT10 : Table :=
  ((tableOfOk (mkTable "t10" wCols10)).insert_row [("x", .vInt 1)]).2

/-! ## C3: a failed insert commits no partial mutation -/

/-- C3: if `insert_row` raises any error, the row storage, the row-id
    counter, the deleted set and every index are unchanged. -/
theorem c3_insert_error_atomic (t : Table) (rd : List (String × Value))
    (e : RdbmsError) (h : (t.insert_row rd).1 = .error e) :
    (t.insert_row rd).2.rows = t.rows ∧
    (t.insert_row rd).2.nextRowId = t.nextRowId ∧
    (t.insert_row rd).2.deleted = t.deleted ∧
    (t.insert_row rd).2.indexes = t.indexes := by
  rcases insert_row_cases t rd with he | ⟨complete, _, _, hok, _⟩
  · rw [he]
    exact ⟨rfl, rfl, rfl, rfl⟩
  · rw [hok] at h
    cases h

theorem c3_insert_error_atomic_witness :
    ((wT3.insert_row [("x", .vNull)]).1 =
      .error (.constraintViolation "Column x cannot be NULL")) ∧
    ((wT3.insert_row [("x", .vNull)]).2.rows = wT3.rows ∧
     (wT3.insert_row [("x", .vNull)]).2.nextRowId = wT3.nextRowId ∧
     (wT3.insert_row [("x", .vNull)]).2.deleted = wT3.deleted ∧
     (wT3.insert_row [("x", .vNull)]).2.indexes = wT3.indexes) :=
  ⟨by decide, c3_insert_error_atomic wT3 [("x", .vNull)]
    (.constraintViolation "Column x cannot be NULL") (by decide)⟩

/-! ## C10: a failed update commits no partial mutation -/

/-- C10: if `update_row` raises any error (unknown column, primary-key
    modification, validation failure, or unique collision), the stored
    rows and every index are unchanged: the source runs every
    validation before it applies any assignment. -/
theorem c10_update_error_atomic (t : Table) (rid : Nat)
    (asg : List (String × Value)) (e : RdbmsError)
    (h : (t.update_row rid asg).1 = .error e) :
    (t.update_row rid asg).2.rows = t.rows ∧
    (t.update_row rid asg).2.nextRowId = t.nextRowId ∧
    (t.update_row rid asg).2.deleted = t.deleted ∧
    (t.update_row rid asg).2.indexes = t.indexes := by
  rcases update_row_cases t rid asg with he | ⟨pre, row, post, _, _, hok, _⟩
  · rw [he]
    exact ⟨rfl, rfl, rfl, rfl⟩
  · rw [hok] at h
    cases h

theorem c10_update_error_atomic_witness :
    ((wT10.update_row 0 [("x", .vStr "no")]).1 =
      .error (.typeValidation "x" "INTEGER")) ∧
    ((wT10.update_row 0 [("x", .vStr "no")]).2.rows = wT10.rows ∧
     (wT10.update_row 0 [("x", .vStr "no")]).2.nextRowId = wT10.nextRowId ∧
     (wT10.update_row 0 [("x", .vStr "no")]).2.deleted = wT10.deleted ∧
     (wT10.update_row 0 [("x", .vStr "no")]).2.indexes = wT10.indexes) :=
  ⟨by decide, c10_update_error_atomic wT10 0 [("x", .vStr "no")]
    (.typeValidation "x" "INTEGER") (by decide)⟩

/-! ## C5: NULL comparison semantics -/

/-- C5: a comparison whose operands resolve with at least one null
    returns `false` for every operator except `!=`, which returns the
    plain Python inequality of the two resolved values; in particular
    `null != null` is `false` and `null != v` is `true` for non-null `v`. -/
theorem c5_null_comparison :
    (∀ (le re : Expr) (op : ComparisonOp) (row : RowMap) (lv rv : Value),
      getValue le row = .ok lv → getValue re row = .ok rv →
      (lv = .vNull ∨ rv = .vNull) →
      evaluate (.comparison le op re) row =
        .ok (if op = .NE then !pyEq lv rv else false)) ∧
    (!pyEq .vNull .vNull) = false ∧
    (∀ v : Value, v ≠ .vNull → (!pyEq .vNull v) = true) := by
  refine ⟨?_, by decide, ?_⟩
  · intro le re op row lv rv hl hr hnull
    simp only [evaluate, hl, hr, if_pos hnull]
    by_cases hne : op = ComparisonOp.NE
    · rw [if_pos hne, if_pos hne]
    · rw [if_neg hne, if_neg hne]
  · intro v hv
    rw [pyEq, decide_eq_false, Bool.not_false]
    intro hk
    exact hv (eq_null_of_keyOf_null hk.symm)

theorem c5_null_comparison_witness :
    (getValue (.literal .vNull) [] = .ok .vNull ∧
     getValue (.literal (.vInt 7)) [] = .ok (.vInt 7)) ∧
    evaluate (.comparison (.literal .vNull) .NE (.literal (.vInt 7))) [] =
      .ok true ∧
    evaluate (.comparison (.literal .vNull) .EQ (.literal (.vInt 7))) [] =
      .ok false :=
  ⟨⟨rfl, rfl⟩,
    by
      have h := c5_null_comparison.1 (.literal .vNull) (.literal (.vInt 7)) .NE
        [] .vNull (.vInt 7) rfl rfl (Or.inl rfl)
      rw [h]
      decide,
    by
      have h := c5_null_comparison.1 (.literal .vNull) (.literal (.vInt 7)) .EQ
        [] .vNull (.vInt 7) rfl rfl (Or.inl rfl)
      rw [h]
      decide⟩

/-! ## C6: column-not-found is raised exactly for reached missing columns -/

/-- C6: evaluation raises column-not-found exactly when a column
    reference actually reached during evaluation is absent from the
    row, and logical short-circuiting skips the right operand entirely
    (so its unresolvable columns never raise). -/
theorem c6_col_not_found_reached :
    (∀ (P : Condition) (row : RowMap),
      isColNotFound (evaluate P row) = reachesMissing P row) ∧
    (∀ (l r : Condition) (row : RowMap), evaluate l row = .ok false →
      evaluate (.logical l .AND r) row = .ok false) ∧
    (∀ (l r : Condition) (row : RowMap), evaluate l row = .ok true →
      evaluate (.logical l .OR r) row = .ok true) := by
  refine ⟨evaluate_colNotFound_iff, ?_, ?_⟩
  · intro l r row h
    simp only [evaluate, h]
    rfl
  · intro l r row h
    simp only [evaluate, h]
    rfl

theorem c6_col_not_found_reached_witness :
    (evaluate (.comparison (.literal (.vInt 1)) .EQ (.literal (.vInt 2))) [] =
      .ok false) ∧
    evaluate (.logical
      (.comparison (.literal (.vInt 1)) .EQ (.literal (.vInt 2))) .AND
      (.comparison (.columnRef "missing" none) .EQ (.literal (.vInt 1)))) [] =
      .ok false :=
  ⟨by decide,
    c6_col_not_found_reached.2.1
      (.comparison (.literal (.vInt 1)) .EQ (.literal (.vInt 2)))
      (.comparison (.columnRef "missing" none) .EQ (.literal (.vInt 1)))
      [] (by decide)⟩

/-! ## C9: FLOAT validation and integer values -/

/-- The runtime kinds accepted by the FLOAT branch of the validator
    (`isinstance(value, (int, float)) and not isinstance(value, bool)`). -/
def isIntOrFloat : Value → Bool
  | .vInt _ => true
  | .vFloat _ => true
  | _ => false

/-- C9 counterexample: a non-null integer value passes FLOAT
    validation, both through `validate_value_for_type` directly and
    through `Column.validate` on a FLOAT column — no type-validation
    error is raised, contradicting the claim that an integer is never
    accepted for a FLOAT-typed column. -/
theorem c9_float_rejects_int_counterexample :
    validate_value_for_type (.vInt 3) "FLOAT" none = .ok true ∧
    Column.validate { name := "price", dataType := .FLOAT } (.vInt 3) "price" =
      .ok () :=
  ⟨rfl, rfl⟩

/-- C9 (amended): FLOAT validation accepts a non-null value exactly
    when it is an integer or a float (ints are accepted, not rejected);
    strings and booleans fail with a type-validation error, and NULL
    always passes the type check. -/
theorem c9_float_accepts_integers (v : Value) :
    (validate_value_for_type v "FLOAT" none =
      if v = .vNull ∨ isIntOrFloat v then .ok true
      else .error (.typeValidation "" "FLOAT")) ∧
    (Column.validate { name := "price", dataType := .FLOAT } v "price" =
      if v = .vNull ∨ isIntOrFloat v then .ok ()
      else .error (.typeValidation "price" "FLOAT")) := by
  cases v <;> exact ⟨rfl, rfl⟩

/-! ## C8: projection of an absent column -/

/-- Lookup in a projected row: a requested column that is present keeps
    its value, a requested column absent from the row is simply not
    there (no error), and unrequested columns are dropped. -/
theorem alookup_project (r : RowMap) (cs : List String) (c : String) :
    alookup (project_columns r cs) c =
      if c ∈ cs then alookup r c else none := by
  induction cs with
  | nil => rfl
  | cons d cs ih =>
    simp only [project_columns, List.filterMap_cons] at ih ⊢
    cases hrd : alookup r d with
    | none =>
      simp only [hrd, Option.map_none']
      rw [ih]
      by_cases hcd : c = d
      · subst hcd
        simp [hrd]
      · simp [List.mem_cons, hcd]
    | some v =>
      simp only [hrd, Option.map_some', alookup]
      by_cases hcd : d = c
      · subst hcd
        simp [hrd]
      · rw [if_neg hcd, ih]
        have : ¬ c = d := fun h => hcd h.symm
        simp [List.mem_cons, this]

/-- C8 counterexample: selecting the absent column `y` alongside `x`
    succeeds and silently returns rows without `y` — execution does not
    fail with a column-not-found error. -/
theorem c8_absent_column_counterexample :
    execute_select wT10 (.names ["x", "y"]) none = .ok [[("x", .vInt 1)]] ∧
    alookup [("x", Value.vInt 1)] "y" = none :=
  ⟨rfl, rfl⟩

/-- C8 (amended): a single-table SELECT with an explicit column list
    never fails on projection; each matching row is projected so that a
    requested column present in the row keeps its value and a requested
    column absent from the row is silently omitted. -/
theorem c8_select_skips_absent_columns (t : Table) (cs : List String)
    (w : Option Condition) (rows : List RowMap)
    (h : get_matching_rows t w = .ok rows) :
    execute_select t (.names cs) w =
      .ok (rows.map (fun r => project_columns r cs)) ∧
    ∀ r ∈ rows, ∀ c : String,
      alookup (project_columns r cs) c =
        if c ∈ cs then alookup r c else none := by
  constructor
  · simp only [execute_select, h]
  · intro r _ c
    exact alookup_project r cs c

theorem c8_select_skips_absent_columns_witness :
    get_matching_rows wT10 none = .ok [[("x", Value.vInt 1)]] ∧
    (execute_select wT10 (.names ["x", "y"]) none =
        .ok ([[("x", Value.vInt 1)]].map (fun r => project_columns r ["x", "y"])) ∧
      ∀ r ∈ [[("x", Value.vInt 1)]], ∀ c : String,
        alookup (project_columns r ["x", "y"]) c =
          if c ∈ ["x", "y"] then alookup r c else none) :=
  ⟨rfl, c8_select_skips_absent_columns wT10 ["x", "y"] none
    [[("x", Value.vInt 1)]] rfl⟩

/-! ## C1: the planner refines the full-scan filter -/

/-- C1: on every well-formed table, `get_matching_rows` returns
    exactly the rows obtained by filtering a full scan of the live rows
    through the condition evaluator (same rows up to order; the same
    error when evaluation raises), whether the index point-lookup path
    or the full-scan path was taken; with no WHERE clause it returns
    every live row. -/
theorem c1_get_matching_rows_full_scan (t : Table) (hwf : WF t)
    (w : Option Condition) :
    ExceptPerm (get_matching_rows t w) (fullScanMatching t w) ∧
    get_matching_rows t none = .ok t.scan :=
  ⟨get_matching_rows_refines hwf w, rfl⟩

/-- A primary-key INTEGER column (auto-indexed) plus a VARCHAR
    column, with two rows; the predicate `id = 1` takes the index
    point-lookup path. -/
def wColsC1 : List Column :=
  [{ name := "id", dataType := .INTEGER, pk := true },
   { name := "v", dataType := .VARCHAR }]

def wTC1 : Table :=
  (((tableOfOk (mkTable "t1" wColsC1)).insert_row
      [("id", .vInt 1), ("v", .vStr "a")]).2.insert_row
      [("id", .vInt 2), ("v", .vStr "b")]).2

def wCondC1 : Condition :=
  .comparison (.columnRef "id" none) .EQ (.literal (.vInt 1))

/-- `wTC1` is reachable through the API, so it satisfies the storage
    invariant. -/
theorem wf_wTC1 : WF wTC1 :=
  wf_insert_row
    (wf_insert_row
      (@wf_mkTable "t1" wColsC1 (tableOfOk (mkTable "t1" wColsC1))
        ⟨by decide, by decide⟩ rfl)
      [("id", .vInt 1), ("v", .vStr "a")])
    [("id", .vInt 2), ("v", .vStr "b")]

theorem c1_get_matching_rows_full_scan_witness :
    ExceptPerm (get_matching_rows wTC1 (some wCondC1))
      (fullScanMatching wTC1 (some wCondC1)) ∧
    get_matching_rows wTC1 none = .ok wTC1.scan :=
  c1_get_matching_rows_full_scan wTC1 wf_wTC1 (some wCondC1)

/-! ## C4: PRIMARY KEY uniqueness and delete-then-reinsert -/

/-- `checkKnownColumns` only reads the schema and the table name. -/
theorem checkKnownColumns_congr {t t' : Table} (hc : t'.columns = t.columns)
    (hn : t'.name = t.name) (rd : List (String × Value)) :
    checkKnownColumns t' rd = checkKnownColumns t rd := by
  induction rd with
  | nil => rfl
  | cons kv rest ih =>
    obtain ⟨k, v⟩ := kv
    simp only [checkKnownColumns, Table.getCol, hc, hn, ih]

/-- `checkPrimaryKey` passes whenever the pk slot for the inserted
    value is empty. -/
theorem checkPrimaryKey_ok_of_empty (t : Table) (complete : List (String × Value))
    (C : String) (hpk : t.primaryKey = some C)
    (hvnn : ¬ rowGetD complete C = .vNull)
    (i : HashIndex) (hidx : alookup t.indexes C = some i)
    (hs : i.search (rowGetD complete C) = []) :
    checkPrimaryKey t complete = .ok () := by
  simp only [checkPrimaryKey, hpk]
  rw [if_neg hvnn, Table.find_by_index, hidx]
  simp only [Option.map_some', hs]

/-- When all four pre-checks pass, `insert_row` returns the fresh row
    id. -/
theorem insert_row_ok_compute (t : Table) (rd complete : List (String × Value))
    (h1 : checkKnownColumns t rd = .ok ())
    (h2 : buildCompleteRow t.columns rd = .ok complete)
    (h3 : checkPrimaryKey t complete = .ok ())
    (h4 : checkUniques t complete t.columns = .ok ()) :
    (t.insert_row rd).1 = .ok t.nextRowId := by
  rw [Table.insert_row]
  simp only [h1, h2, h3, h4]

/-- C4: on a well-formed table whose PRIMARY KEY column `C` has a live
    row holding the non-null value `u`, inserting a row whose `C` value
    is `==`-equal to `u` (and which passes the earlier checks) fails
    with a Duplicate-key error and leaves the table unchanged; after
    `delete_row` succeeds on that holder, the same insert (its UNIQUE
    pre-checks passing) succeeds with the fresh row id. -/
theorem c4_pk_duplicate_and_reinsert (t : Table) (hwf : WF t) (C : String)
    (hpk : t.primaryKey = some C) (r : TableRow) (hr : r ∈ t.rows)
    (hlive : r.rid ∉ t.deleted) (u : Value)
    (hu : alookup r.fields C = some u) (hun : u ≠ .vNull)
    (rd complete : List (String × Value))
    (hkc : checkKnownColumns t rd = .ok ())
    (hbc : buildCompleteRow t.columns rd = .ok complete)
    (heq : pyEq (rowGetD complete C) u = true)
    (hcu : checkUniques (t.delete_row r.rid).2 complete t.columns = .ok ()) :
    ((t.insert_row rd).1 =
        .error (.duplicateKey C (rowGetD complete C)) ∧
      (t.insert_row rd).2 = t) ∧
    (t.delete_row r.rid).1 = true ∧
    ((t.delete_row r.rid).2.insert_row rd).1 = .ok t.nextRowId := by
  have hkv : keyOf (rowGetD complete C) = keyOf u := of_decide_eq_true heq
  have hvnn : rowGetD complete C ≠ .vNull := by
    intro hv
    rw [hv] at hkv
    exact hun (eq_null_of_keyOf_null hkv.symm)
  have hmemC : C ∈ t.indexes.map Prod.fst := hwf.pkIndexed C hpk
  have hsome := alookup_isSome_of_mem_keys hmemC
  rcases hidx : alookup t.indexes C with _ | idx
  · rw [hidx] at hsome
    simp at hsome
  have hpmem : (C, idx) ∈ t.indexes := alookup_mem hidx
  have hrin : r.rid ∈ idx.m (keyOf u) :=
    (hwf.idxExact (C, idx) hpmem (keyOf u) r.rid).2
      ⟨r, hr, rfl, hlive, u, hu, hun, rfl⟩
  -- the pk slot holds exactly this row
  have hslot1 : idx.m (keyOf u) = [r.rid] := by
    have hlen := hwf.pkUnique C hpk (C, idx) hpmem rfl (keyOf u)
    rcases hsl : idx.m (keyOf u) with _ | ⟨a, as⟩
    · rw [hsl] at hrin
      cases hrin
    · rw [hsl] at hlen hrin
      have has : as = [] := by
        cases as with
        | nil => rfl
        | cons b bs => simp at hlen
      subst has
      simp only [List.mem_singleton] at hrin
      rw [hrin]
  -- part 1: the duplicate insert errors out before any mutation
  have hcpk : checkPrimaryKey t complete =
      .error (.duplicateKey C (rowGetD complete C)) := by
    simp only [checkPrimaryKey, hpk]
    rw [if_neg hvnn]
    rw [Table.find_by_index, hidx]
    simp only [Option.map_some', HashIndex.search, if_neg hvnn, hkv, hslot1]
  have hins1 : t.insert_row rd =
      (.error (.duplicateKey C (rowGetD complete C)), t) := by
    rw [Table.insert_row]
    simp only [hkc, hbc, hcpk]
  refine ⟨⟨by rw [hins1], by rw [hins1]⟩, ?_⟩
  -- part 2: delete the holder, then reinsert
  obtain ⟨p, s, hf⟩ := findLive_mem hr rfl hlive hwf.ridsNodup
  have hdel : t.delete_row r.rid =
      (true, { t with
          deleted := r.rid :: t.deleted
          indexes := t.indexes.map
            (fun q => (q.1, q.2.delete (rowGetD r.fields q.1) r.rid)) }) := by
    rw [Table.delete_row]
    simp only [hf]
  refine ⟨by rw [hdel], ?_⟩
  have hruC : rowGetD r.fields C = u := by
    rw [rowGetD, hu]
    rfl
  have hidxR : alookup (t.indexes.map
      (fun q => (q.1, q.2.delete (rowGetD r.fields q.1) r.rid))) C =
      some (idx.delete u r.rid) := by
    rw [alookup_map_pair, hidx]
    simp only [Option.map_some', hruC]
  have hdelidx : (idx.delete u r.rid).search (rowGetD complete C) = [] := by
    rw [HashIndex.search, if_neg hvnn, hkv, HashIndex.delete, if_neg hun]
    show (if keyOf u = keyOf u then (idx.m (keyOf u)).erase r.rid
      else idx.m (keyOf u)) = []
    rw [if_pos rfl, hslot1, List.erase_cons_head]
  have hdel2 : (t.delete_row r.rid).2 = { t with
      deleted := r.rid :: t.deleted
      indexes := t.indexes.map
        (fun q => (q.1, q.2.delete (rowGetD r.fields q.1) r.rid)) } := by
    rw [hdel]
  have h1R : checkKnownColumns { t with
      deleted := r.rid :: t.deleted
      indexes := t.indexes.map
        (fun q => (q.1, q.2.delete (rowGetD r.fields q.1) r.rid)) } rd = .ok () := by
    have hc : ({ t with
        deleted := r.rid :: t.deleted
        indexes := t.indexes.map
          (fun q => (q.1, q.2.delete (rowGetD r.fields q.1) r.rid)) } : Table).columns
        = t.columns := rfl
    have hn : ({ t with
        deleted := r.rid :: t.deleted
        indexes := t.indexes.map
          (fun q => (q.1, q.2.delete (rowGetD r.fields q.1) r.rid)) } : Table).name
        = t.name := rfl
    exact (checkKnownColumns_congr hc hn rd).trans hkc
  rw [hdel2] at hcu ⊢
  exact insert_row_ok_compute _ rd complete h1R hbc
    (checkPrimaryKey_ok_of_empty _ complete C hpk hvnn _ hidxR hdelidx) hcu

theorem c4_pk_duplicate_and_reinsert_witness :
    ((wTC1.insert_row [("id", .vInt 1), ("v", .vStr "c")]).1 =
        .error (.duplicateKey "id" (.vInt 1)) ∧
      (wTC1.insert_row [("id", .vInt 1), ("v", .vStr "c")]).2 = wTC1) ∧
    (wTC1.delete_row 0).1 = true ∧
    ((wTC1.delete_row 0).2.insert_row [("id", .vInt 1), ("v", .vStr "c")]).1 =
      .ok wTC1.nextRowId :=
  c4_pk_duplicate_and_reinsert wTC1 wf_wTC1 "id" (by decide)
    ⟨[("id", .vInt 1), ("v", .vStr "a")], 0⟩ (by decide) (by decide)
    (.vInt 1) (by decide) (by decide)
    [("id", .vInt 1), ("v", .vStr "c")] [("id", .vInt 1), ("v", .vStr "c")]
    (by decide) (by decide) (by decide) (by decide)

/-! ## C2: index/search exactness and delete permanence -/

/-- C2: after any sequence of API operations on a well-formed table,
    every index's `search(v)` for non-null `v` returns exactly the live
    row ids whose stored value in the indexed column `==`-equals `v`;
    `search(null)` is always empty (nulls are never indexed); and once
    `delete_row(id)` succeeds, `id` never again appears in any index's
    search results, whatever operations follow. -/
theorem c2_index_invariants (t : Table) (hwf : WF t) (ops : List TableOp)
    (hops : ∀ op ∈ ops, opWF op) :
    (∀ p ∈ (runOps t ops).indexes, ∀ v : Value, v ≠ .vNull → ∀ rid,
      rid ∈ p.2.search v ↔
        ∃ r ∈ (runOps t ops).rows, r.rid = rid ∧
          rid ∉ (runOps t ops).deleted ∧
          ∃ u, alookup r.fields p.1 = some u ∧ pyEq u v = true) ∧
    (∀ p ∈ (runOps t ops).indexes, p.2.search .vNull = []) ∧
    (∀ rid, (t.delete_row rid).1 = true →
      ∀ ops2, (∀ op ∈ ops2, opWF op) →
        ∀ p ∈ (runOps (t.delete_row rid).2 ops2).indexes, ∀ v : Value,
          rid ∉ p.2.search v) := by
  have hwfT := wf_runOps hwf hops
  refine ⟨?_, ?_, ?_⟩
  · intro p hp v hv rid
    rw [HashIndex.search, if_neg hv]
    rw [hwfT.idxExact p hp (keyOf v) rid]
    constructor
    · rintro ⟨r, hr, hre, hrd, u, hu, _, hku⟩
      exact ⟨r, hr, hre, hrd, u, hu, decide_eq_true hku⟩
    · rintro ⟨r, hr, hre, hrd, u, hu, hpe⟩
      have hku : keyOf u = keyOf v := of_decide_eq_true hpe
      have hun : u ≠ .vNull := by
        intro h
        rw [h] at hku
        exact hv (eq_null_of_keyOf_null hku.symm)
      exact ⟨r, hr, hre, hrd, u, hu, hun, hku⟩
  · intro p _
    simp [HashIndex.search]
  · intro rid hdel ops2 hops2 p hp v hin
    have hwfd : WF (t.delete_row rid).2 := wf_delete_row hwf rid
    have hwf2 := wf_runOps hwfd hops2
    have hriddel : rid ∈ (t.delete_row rid).2.deleted := by
      rcases hf : findLive t.rows t.deleted rid with _ | ⟨⟨pre, row, post⟩⟩
      · rw [Table.delete_row] at hdel
        simp only [hf] at hdel
        cases hdel
      · rw [Table.delete_row]
        simp only [hf]
        exact List.mem_cons_self _ _
    have hmono := deleted_mono_runOps (t.delete_row rid).2 ops2 rid hriddel
    by_cases hv : v = .vNull
    · rw [hv, HashIndex.search] at hin
      simp at hin
    · rw [HashIndex.search, if_neg hv] at hin
      obtain ⟨r, hr, hre, hrd, _⟩ := (hwf2.idxExact p hp (keyOf v) rid).1 hin
      exact hrd hmono

theorem c2_index_invariants_witness :
    (∀ p ∈ (runOps wTC1 [.delete 0,
        .insert [("id", .vInt 3), ("v", .vStr "c")]]).indexes,
      ∀ v : Value, v ≠ .vNull → ∀ rid,
      rid ∈ p.2.search v ↔
        ∃ r ∈ (runOps wTC1 [.delete 0,
            .insert [("id", .vInt 3), ("v", .vStr "c")]]).rows, r.rid = rid ∧
          rid ∉ (runOps wTC1 [.delete 0,
            .insert [("id", .vInt 3), ("v", .vStr "c")]]).deleted ∧
          ∃ u, alookup r.fields p.1 = some u ∧ pyEq u v = true) ∧
    (∀ p ∈ (runOps wTC1 [.delete 0,
        .insert [("id", .vInt 3), ("v", .vStr "c")]]).indexes,
      p.2.search .vNull = []) ∧
    (∀ rid, (wTC1.delete_row rid).1 = true →
      ∀ ops2, (∀ op ∈ ops2, opWF op) →
        ∀ p ∈ (runOps (wTC1.delete_row rid).2 ops2).indexes, ∀ v : Value,
          rid ∉ p.2.search v) :=
  c2_index_invariants wTC1 wf_wTC1
    [.delete 0, .insert [("id", .vInt 3), ("v", .vStr "c")]]
    (by
      intro op hop
      rcases List.mem_cons.1 hop with h | h
      · rw [h]
        exact trivial
      · rcases List.mem_cons.1 h with h2 | h2
        · rw [h2]
          exact (by decide :
            (List.map Prod.fst
              [("id", Value.vInt 3), ("v", Value.vStr "c")]).Nodup)
        · cases h2)

/-! ## C7: UPDATE/DELETE counts and mutation targeting -/

/-- The Boolean "this row satisfies the (optional) WHERE clause". -/
def satB (w : Option Condition) (f : RowMap) : Bool :=
  match w with
  | none => true
  | some c => evalT c f

/-- The row after the SET assignments (batch form of the assignment
    fold of `update_row`, see `overwrite_fold`). -/
def overwrite (asg : List (String × Value)) (f : RowMap) : RowMap :=
  f.map (fun p =>
    (p.1, match alookup asg p.1 with | some nv => nv | none => p.2))

/-- A stored row after the SET assignments when its id is in `S`. -/
def overwriteRow (asg : List (String × Value)) (S : List Nat)
    (r : TableRow) : TableRow :=
  if r.rid ∈ S then ⟨overwrite asg r.fields, r.rid⟩ else r

/-- Row storage in which exactly the rows with id in `S` have been
    overwritten. -/
def mapOver (asg : List (String × Value)) (S : List Nat)
    (rows : List TableRow) : List TableRow :=
  rows.map (overwriteRow asg S)

/-- Rows equal up to Python `==` on each field (same keys in the same
    order, values `==`-equal). -/
def fieldsEq (f g : RowMap) : Prop :=
  List.Forall₂ (fun p q => p.1 = q.1 ∧ pyEq p.2 q.2 = true) f g

theorem pyEq_refl (v : Value) : pyEq v v = true := decide_eq_true rfl

theorem fieldsEq_refl (f : RowMap) : fieldsEq f f :=
  List.forall₂_same.2 (fun p _ => ⟨rfl, pyEq_refl p.2⟩)

/-- A row with duplicate-free keys matches itself. -/
theorem rowMatches_self (f : RowMap) (hnd : (f.map Prod.fst).Nodup) :
    rowMatches f f = true := by
  rw [rowMatches, List.all_eq_true]
  intro kv hkv
  obtain ⟨k, v⟩ := kv
  have hl := mem_alookup_of_nodup hnd hkv
  rw [rowGetD, hl]
  exact pyEq_refl v

/-- `find?` returns the designated element when it satisfies the
    predicate and is the only satisfying element. -/
theorem find_unique {α : Type} (l : List α) (p : α → Bool) (a : α)
    (ha : a ∈ l) (hpa : p a = true)
    (huniq : ∀ b ∈ l, p b = true → b = a) :
    l.find? p = some a := by
  induction l with
  | nil => cases ha
  | cons x xs ih =>
    by_cases hx : p x = true
    · rw [List.find?_cons_of_pos xs hx, huniq x (List.mem_cons_self x xs) hx]
    · rw [List.find?_cons_of_neg xs hx]
      rcases List.mem_cons.1 ha with h1 | h1
      · rw [← h1] at hx
        exact absurd hpa hx
      · exact ih h1 (fun b hb => huniq b (List.mem_cons_of_mem _ hb))

theorem mem_scan_iff (t : Table) (m : RowMap) :
    m ∈ t.scan ↔ ∃ r ∈ t.rows, r.rid ∉ t.deleted ∧ r.fields = m := by
  rw [Table.scan, List.mem_map]
  constructor
  · rintro ⟨r, hr, rfl⟩
    rw [List.mem_filter] at hr
    exact ⟨r, hr.1, by simpa using hr.2, rfl⟩
  · rintro ⟨r, hr, hl, rfl⟩
    exact ⟨r, List.mem_filter.2 ⟨hr, by simpa using hl⟩, rfl⟩

/-- If the filter loop did not raise, every row evaluated cleanly. -/
theorem filterMatching_ok_inv {cond : Condition} {rows : List RowMap}
    {l : List RowMap} (h : filterMatching cond rows = .ok l) :
    ∀ r ∈ rows, ∃ b, evaluate cond r = .ok b := by
  induction rows generalizing l with
  | nil => intro r hr; cases hr
  | cons r rest ih =>
    intro r' hr'
    rcases he : evaluate cond r with e | b
    · rw [filterMatching, he] at h
      cases h
    · rcases List.mem_cons.1 hr' with h1 | h1
      · exact ⟨b, h1 ▸ he⟩
      · rw [filterMatching, he] at h
        rcases hrest : filterMatching cond rest with e2 | kept
        · rw [hrest] at h
          cases h
        · exact ih hrest r' h1

/-- The planner's matches are a permutation of the live rows accepted
    by the predicate. -/
theorem matching_perm {t : Table} (hwf : WF t) {w : Option Condition}
    {matching : List RowMap} (hm : get_matching_rows t w = .ok matching) :
    matching.Perm (t.scan.filter (satB w)) := by
  have href := get_matching_rows_refines hwf w
  rw [hm] at href
  cases w with
  | none =>
    have hperm : matching.Perm t.scan := href
    have hfil : t.scan.filter (satB none) = t.scan := List.filter_true t.scan
    rw [hfil]
    exact hperm
  | some cond =>
    rcases hfs : filterMatching cond t.scan with e | l
    · rw [show fullScanMatching t (some cond) = filterMatching cond t.scan
        from rfl, hfs] at href
      exact (href : False).elim
    · rw [show fullScanMatching t (some cond) = filterMatching cond t.scan
        from rfl, hfs] at href
      have hperm : matching.Perm l := href
      have hl : l = t.scan.filter (evalT cond) := by
        have := filterMatching_ok (filterMatching_ok_inv hfs)
        rw [this] at hfs
        exact (Except.ok.injEq _ _ ▸ hfs).symm
      rw [show satB (some cond) = evalT cond from rfl]
      rw [← hl]
      exact hperm

theorem forall2_mem_right {α β : Type} {R : α → β → Prop} {l1 : List α}
    {l2 : List β} (h : List.Forall₂ R l1 l2) {b : β} (hb : b ∈ l2) :
    ∃ a ∈ l1, R a b := by
  induction h with
  | nil => cases hb
  | cons hr _ ih =>
    rcases List.mem_cons.1 hb with h1 | h1
    · exact ⟨_, List.mem_cons_self _ _, h1 ▸ hr⟩
    · obtain ⟨a, ha, hab⟩ := ih h1
      exact ⟨a, List.mem_cons_of_mem _ ha, hab⟩

theorem forall2_mem_left {α β : Type} {R : α → β → Prop} {l1 : List α}
    {l2 : List β} (h : List.Forall₂ R l1 l2) {a : α} (ha : a ∈ l1) :
    ∃ b ∈ l2, R a b := by
  induction h with
  | nil => cases ha
  | cons hr _ ih =>
    rcases List.mem_cons.1 ha with h1 | h1
    · exact ⟨_, List.mem_cons_self _ _, h1 ▸ hr⟩
    · obtain ⟨b, hb, hab⟩ := ih h1
      exact ⟨b, List.mem_cons_of_mem _ hb, hab⟩

/-- Structurally distinct row maps drawn from the live rows correspond
    to rows with pairwise distinct ids. -/
theorem exists_corr (t : Table) (hridnd : (t.rows.map TableRow.rid).Nodup) :
    ∀ ms : List RowMap, (∀ m ∈ ms, ∃ r ∈ t.rows, r.rid ∉ t.deleted ∧
      r.fields = m) → ms.Nodup →
    ∃ rs : List TableRow,
      List.Forall₂ (fun m r => r ∈ t.rows ∧ r.rid ∉ t.deleted ∧
        r.fields = m) ms rs ∧ (rs.map TableRow.rid).Nodup := by
  intro ms
  induction ms with
  | nil => exact fun _ _ => ⟨[], List.Forall₂.nil, List.nodup_nil⟩
  | cons m ms ih =>
    intro hms hnd
    rw [List.nodup_cons] at hnd
    obtain ⟨r, hr, hlv, hf⟩ := hms m (List.mem_cons_self _ _)
    obtain ⟨rs, hcorr, hrsnd⟩ :=
      ih (fun m' hm' => hms m' (List.mem_cons_of_mem _ hm')) hnd.2
    refine ⟨r :: rs, List.Forall₂.cons ⟨hr, hlv, hf⟩ hcorr, ?_⟩
    rw [List.map_cons, List.nodup_cons]
    refine ⟨?_, hrsnd⟩
    intro hmem
    obtain ⟨r', hr', hre⟩ := List.mem_map.1 hmem
    obtain ⟨m', hm', hr'm, _, hf'⟩ := forall2_mem_right hcorr hr'
    have : r' = r := rows_rid_unique hridnd hr'm hr hre
    exact hnd.1 (by rw [← hf, ← this, hf']; exact hm')

/-- Overwriting is idempotent. -/
theorem overwrite_idem (asg : List (String × Value)) (f : RowMap) :
    overwrite asg (overwrite asg f) = overwrite asg f := by
  simp only [overwrite, List.map_map]
  apply List.map_congr_left
  intro p _
  rcases ha : alookup asg p.1 with _ | nv
  · simp [ha]
  · simp [ha]

theorem mapOver_nil (asg : List (String × Value)) (rows : List TableRow) :
    mapOver asg [] rows = rows := by
  rw [mapOver, show rows = rows.map id from (List.map_id rows).symm,
    List.map_map]
  apply List.map_congr_left
  intro r _
  simp [overwriteRow]

theorem overwriteRow_rid (asg : List (String × Value)) (S : List Nat)
    (r : TableRow) : (overwriteRow asg S r).rid = r.rid := by
  rw [overwriteRow]
  by_cases h : r.rid ∈ S
  · rw [if_pos h]
  · rw [if_neg h]

/-- `findLive` commutes with an id-preserving transformation of the
    row storage. -/
theorem findLive_map (f : TableRow → TableRow) (hf : ∀ r, (f r).rid = r.rid)
    (rows : List TableRow) (deleted : List Nat) (rid : Nat) :
    findLive (rows.map f) deleted rid =
      (findLive rows deleted rid).map
        (fun pxs => (pxs.1.map f, f pxs.2.1, pxs.2.2.map f)) := by
  induction rows with
  | nil => rfl
  | cons r rest ih =>
    simp only [List.map_cons, findLive, hf]
    by_cases hr : r.rid = rid ∧ rid ∉ deleted
    · rw [if_pos hr, if_pos hr]
      rfl
    · rw [if_neg hr, if_neg hr, ih]
      cases hfl : findLive rest deleted rid with
      | none => rfl
      | some pxs => rfl

/-- When no two live rows are value-identical, the executor's
    re-location scan finds exactly the row whose fields it was handed. -/
theorem findFirstLiveMatching_unique (t t' : Table) (r : TableRow)
    (hrows : t'.rows = t.rows)
    (hdelsub : ∀ d ∈ t.deleted, d ∈ t'.deleted)
    (hdist : ∀ r1 ∈ t.rows, ∀ r2 ∈ t.rows, r1.rid ∉ t.deleted →
      r2.rid ∉ t.deleted → rowMatches r1.fields r2.fields = true → r1 = r2)
    (hr : r ∈ t.rows) (hlive : r.rid ∉ t'.deleted)
    (hself : rowMatches r.fields r.fields = true) :
    findFirstLiveMatching t' r.fields = some r.rid := by
  rw [findFirstLiveMatching, hrows]
  have hfind := find_unique t.rows
    (fun q => decide (q.rid ∉ t'.deleted) && rowMatches r.fields q.fields)
    r hr (by simp [hlive, hself]) ?_
  · rw [hfind]
    rfl
  · intro b hb hpb
    simp only [Bool.and_eq_true, decide_eq_true_eq] at hpb
    have hbl : b.rid ∉ t.deleted := fun hd => hpb.1 (hdelsub _ hd)
    have hrl : r.rid ∉ t.deleted := fun hd => hlive (hdelsub _ hd)
    exact (hdist r hr b hb hrl hbl hpb.2).symm

/-- Deleting a live row succeeds and only marks its id. -/
theorem delete_row_live (t' : Table) (r : TableRow)
    (hnd : (t'.rows.map TableRow.rid).Nodup)
    (hr : r ∈ t'.rows) (hlive : r.rid ∉ t'.deleted) :
    (t'.delete_row r.rid).1 = true ∧
    (t'.delete_row r.rid).2.rows = t'.rows ∧
    (t'.delete_row r.rid).2.deleted = r.rid :: t'.deleted := by
  obtain ⟨p, s, hf⟩ := findLive_mem hr rfl hlive hnd
  rw [Table.delete_row]
  simp [hf]

/-- The delete loop of `_execute_delete`: when each match corresponds
    to its own distinct live row, each iteration deletes exactly that
    row and the count goes up by one per match. -/
theorem deleteLoop_spec (t : Table)
    (hdist : ∀ r1 ∈ t.rows, ∀ r2 ∈ t.rows, r1.rid ∉ t.deleted →
      r2.rid ∉ t.deleted → rowMatches r1.fields r2.fields = true → r1 = r2)
    (hkeys : ∀ r ∈ t.rows, (r.fields.map Prod.fst).Nodup)
    (hnd : (t.rows.map TableRow.rid).Nodup) :
    ∀ (ms : List RowMap) (rs : List TableRow) (t' : Table) (count : Nat),
    t'.rows = t.rows →
    (∀ d ∈ t.deleted, d ∈ t'.deleted) →
    List.Forall₂ (fun m r => r ∈ t.rows ∧ r.fields = m) ms rs →
    (∀ r ∈ rs, r.rid ∉ t'.deleted) →
    (rs.map TableRow.rid).Nodup →
    (deleteLoop t' ms count).1 = count + ms.length ∧
    (deleteLoop t' ms count).2.rows = t.rows ∧
    (∀ rid, rid ∈ (deleteLoop t' ms count).2.deleted ↔
      rid ∈ t'.deleted ∨ rid ∈ rs.map TableRow.rid) := by
  intro ms
  induction ms with
  | nil =>
    intro rs t' count hrows hdelsub hf2 _ _
    cases hf2
    exact ⟨rfl, hrows, fun rid => by simp [deleteLoop]⟩
  | cons m ms ih =>
    intro rs t' count hrows hdelsub hf2 hliv hrsnd
    cases hf2 with
    | cons hab htail =>
      rename_i r rs'
      have hrlive : r.rid ∉ t'.deleted := hliv r (List.mem_cons_self _ _)
      have hself : rowMatches r.fields r.fields = true :=
        rowMatches_self _ (hkeys r hab.1)
      have hfind : findFirstLiveMatching t' m = some r.rid := by
        rw [← hab.2]
        exact findFirstLiveMatching_unique t t' r hrows hdelsub hdist
          hab.1 hrlive hself
      obtain ⟨hd1, hdrows, hddel⟩ := delete_row_live t' r
        (by rw [hrows]; exact hnd) (by rw [hrows]; exact hab.1) hrlive
      rw [List.map_cons, List.nodup_cons] at hrsnd
      have hstep := ih rs' (t'.delete_row r.rid).2 (count + 1)
        (hdrows.trans hrows)
        (fun d hd => by rw [hddel]; exact List.mem_cons_of_mem _ (hdelsub d hd))
        htail
        (fun r' hr' => by
          rw [hddel]
          intro hmem
          rcases List.mem_cons.1 hmem with h1 | h1
          · exact hrsnd.1 (h1 ▸ List.mem_map_of_mem TableRow.rid hr')
          · exact hliv r' (List.mem_cons_of_mem _ hr') h1)
        hrsnd.2
      rw [deleteLoop]
      simp only [hfind]
      refine ⟨?_, hstep.2.1, ?_⟩
      · rw [hstep.1]
        simp only [List.length_cons]
        omega
      · intro rid
        rw [hstep.2.2 rid, hddel]
        simp only [List.map_cons, List.mem_cons]
        tauto

/-- When the executor re-targets a match onto an already-overwritten
    row, the match was already `==`-equal to its own overwritten form. -/
theorem retarget_fieldsEq (asg : List (String × Value)) (m g : RowMap)
    (hkeys : m.map Prod.fst = g.map Prod.fst)
    (hmatch : rowMatches m (overwrite asg g) = true) :
    fieldsEq m (overwrite asg m) := by
  rw [fieldsEq, overwrite, List.forall₂_map_right_iff, List.forall₂_same]
  intro p hp
  obtain ⟨c, v⟩ := p
  rcases ha : alookup asg c with _ | nv
  · simp only [ha]
    exact ⟨trivial, pyEq_refl v⟩
  · simp only [ha]
    refine ⟨trivial, ?_⟩
    rw [rowMatches, List.all_eq_true] at hmatch
    have h1 := hmatch (c, v) hp
    have hc : c ∈ g.map Prod.fst := by
      rw [← hkeys]
      exact List.mem_map_of_mem Prod.fst hp
    have hw := alookup_isSome_of_mem_keys hc
    rcases hg : alookup g c with _ | w
    · rw [hg] at hw
      simp at hw
    · have hov : alookup (overwrite asg g) c = some nv := by
        rw [overwrite, alookup_map_pair, hg]
        simp only [Option.map_some', ha]
      rw [rowGetD, hov] at h1
      rw [pyEq_symm]
      exact h1

theorem mapOver_mem_cons (asg : List (String × Value)) (S : List Nat)
    (x : Nat) (hx : x ∈ S) (rows : List TableRow) :
    mapOver asg (x :: S) rows = mapOver asg S rows := by
  rw [mapOver, mapOver]
  apply List.map_congr_left
  intro r _
  rw [overwriteRow, overwriteRow]
  by_cases h : r.rid ∈ S
  · rw [if_pos h, if_pos (List.mem_cons_of_mem _ h)]
  · have h2 : r.rid ∉ x :: S := by
      intro hc
      rcases List.mem_cons.1 hc with h1 | h1
      · exact h (h1 ▸ hx)
      · exact h h1
    rw [if_neg h2, if_neg h]

theorem mapOver_rids (asg : List (String × Value)) (S : List Nat)
    (rows : List TableRow) :
    (mapOver asg S rows).map TableRow.rid = rows.map TableRow.rid := by
  rw [mapOver, List.map_map]
  exact List.map_congr_left (fun r _ => overwriteRow_rid asg S r)

/-- Updating a live row of an `S`-overwritten table with valid
    assignments succeeds and moves exactly that row into the
    overwritten set. -/
theorem update_row_on_mapOver (t : Table) (asg : List (String × Value))
    (hasgnd : (asg.map Prod.fst).Nodup)
    (hnd : (t.rows.map TableRow.rid).Nodup)
    (S : List Nat) (t' : Table)
    (hrows : t'.rows = mapOver asg S t.rows)
    (hdel : t'.deleted = t.deleted)
    (r0 : TableRow) (h0 : r0 ∈ t.rows) (hlv : r0.rid ∉ t.deleted)
    (hca : checkAssignments t' r0.rid asg = .ok ()) :
    (t'.update_row r0.rid asg).1 = .ok true ∧
    (t'.update_row r0.rid asg).2.rows = mapOver asg (r0.rid :: S) t.rows ∧
    (t'.update_row r0.rid asg).2.deleted = t.deleted := by
  obtain ⟨p, s, hf⟩ := findLive_mem h0 rfl hlv hnd
  obtain ⟨hsplit, _, _, _⟩ := findLive_some_spec hf
  have hf' : findLive t'.rows t'.deleted r0.rid =
      some (p.map (overwriteRow asg S), overwriteRow asg S r0,
        s.map (overwriteRow asg S)) := by
    rw [hrows, hdel, mapOver, findLive_map (overwriteRow asg S)
      (overwriteRow_rid asg S), hf]
    rfl
  have hnds : ((p ++ r0 :: s).map TableRow.rid).Nodup := by
    rw [← hsplit]
    exact hnd
  have hqne : ∀ q ∈ p ++ s, q.rid ≠ r0.rid := by
    rw [List.map_append, List.map_cons] at hnds
    intro q hq he
    rcases List.mem_append.1 hq with h1 | h1
    · have h2 : q.rid ∈ r0.rid :: s.map TableRow.rid := by
        rw [he]
        exact List.mem_cons_self _ _
      exact (List.nodup_append.1 hnds).2.2 (List.mem_map_of_mem _ h1) h2
    · have htl := (List.nodup_append.1 hnds).2.1
      rw [List.nodup_cons] at htl
      exact htl.1 (he ▸ List.mem_map_of_mem _ h1)
  have hap : (asg.foldl
      (applyOneAssignment (overwriteRow asg S r0).fields r0.rid)
      ((overwriteRow asg S r0).fields, t'.indexes)).1 =
      overwrite asg ((overwriteRow asg S r0).fields) := by
    rw [applyUpdates_fst, overwrite_fold asg hasgnd]
    rfl
  have hfields : overwrite asg ((overwriteRow asg S r0).fields) =
      overwrite asg r0.fields := by
    rw [overwriteRow]
    by_cases h : r0.rid ∈ S
    · rw [if_pos h]
      exact overwrite_idem asg r0.fields
    · rw [if_neg h]
  refine ⟨by rw [Table.update_row]; simp [hf', hca], ?_,
    by rw [Table.update_row]; simp only [hf', hca]; exact hdel⟩
  rw [Table.update_row]
  simp only [hf', hca]
  rw [hap, hfields, hsplit]
  simp only [mapOver, List.map_append, List.map_cons]
  congr 1
  · exact List.map_congr_left (fun q hq => by
      rw [overwriteRow, overwriteRow]
      by_cases h : q.rid ∈ S
      · rw [if_pos h, if_pos (List.mem_cons_of_mem _ h)]
      · have h2 : q.rid ∉ r0.rid :: S := by
          intro hc
          rcases List.mem_cons.1 hc with h1 | h1
          · exact hqne q (List.mem_append.2 (Or.inl hq)) h1
          · exact h h1
        rw [if_neg h, if_neg h2])
  · congr 1
    · rw [overwriteRow_rid, overwriteRow, if_pos (List.mem_cons_self _ _)]
    · exact List.map_congr_left (fun q hq => by
        rw [overwriteRow, overwriteRow]
        by_cases h : q.rid ∈ S
        · rw [if_pos h, if_pos (List.mem_cons_of_mem _ h)]
        · have h2 : q.rid ∉ r0.rid :: S := by
            intro hc
            rcases List.mem_cons.1 hc with h1 | h1
            · exact hqne q (List.mem_append.2 (Or.inr hq)) h1
            · exact h h1
          rw [if_neg h, if_neg h2])

/-- The update loop of `_execute_update`: when no two live rows are
    value-identical and every step succeeds, the count goes up by one
    per planner match, and the final storage is the original storage
    with some subset of the matched rows' ids overwritten; every match
    whose own row was left untouched was already `==`-equal to its
    overwritten form. -/
theorem updateLoop_spec (t : Table) (asg : List (String × Value))
    (hasgnd : (asg.map Prod.fst).Nodup)
    (hdist : ∀ r1 ∈ t.rows, ∀ r2 ∈ t.rows, r1.rid ∉ t.deleted →
      r2.rid ∉ t.deleted → rowMatches r1.fields r2.fields = true → r1 = r2)
    (hkeys : ∀ r ∈ t.rows, (r.fields.map Prod.fst).Nodup)
    (hcols : ∀ r1 ∈ t.rows, ∀ r2 ∈ t.rows,
      r1.fields.map Prod.fst = r2.fields.map Prod.fst)
    (hnd : (t.rows.map TableRow.rid).Nodup) :
    ∀ (ms : List RowMap) (rs : List TableRow) (S : List Nat) (t' : Table)
      (count : Nat) (res : Except RdbmsError Nat) (tf : Table),
    updateLoop asg t' ms count = (res, tf) →
    (∃ n, res = .ok n) →
    t'.rows = mapOver asg S t.rows →
    t'.deleted = t.deleted →
    List.Forall₂ (fun m r => r ∈ t.rows ∧ r.rid ∉ t.deleted ∧ r.fields = m)
      ms rs →
    (∀ r ∈ rs, r.rid ∉ S) →
    (rs.map TableRow.rid).Nodup →
    res = .ok (count + ms.length) ∧
    ∃ S' : List Nat,
      (∀ x ∈ S', x ∈ S ∨ x ∈ rs.map TableRow.rid) ∧
      (∀ x ∈ S, x ∈ S') ∧
      tf.rows = mapOver asg S' t.rows ∧
      tf.deleted = t.deleted ∧
      List.Forall₂ (fun m r => r.rid ∈ S' ∨ fieldsEq m (overwrite asg m))
        ms rs := by
  intro ms
  induction ms with
  | nil =>
    intro rs S t' count res tf hloop _ hrows hdel hcorr _ _
    cases hcorr
    rw [updateLoop] at hloop
    have h1 : res = .ok count := (congrArg Prod.fst hloop).symm
    have h2 : tf = t' := (congrArg Prod.snd hloop).symm
    subst h2
    refine ⟨by rw [h1, List.length_nil, Nat.add_zero], S,
      fun x hx => Or.inl hx, fun x hx => hx, hrows, hdel, List.Forall₂.nil⟩
  | cons m ms ih =>
    intro rs S t' count res tf hloop hok hrows hdel hcorr hnotS hrsnd
    cases hcorr with
    | cons hab htail =>
    rename_i r rs'
    obtain ⟨hrmem, hrlive, hrf⟩ := hab
    have hrS : r.rid ∉ S := hnotS r (List.mem_cons_self _ _)
    have hrid : overwriteRow asg S r = r := by
      rw [overwriteRow, if_neg hrS]
    have hrt' : r ∈ t'.rows := by
      rw [hrows, mapOver]
      exact hrid ▸ List.mem_map_of_mem _ hrmem
    have hself : rowMatches r.fields r.fields = true :=
      rowMatches_self _ (hkeys r hrmem)
    have hqr : (decide (r.rid ∉ t'.deleted) && rowMatches m r.fields) = true := by
      rw [← hrf, hdel]
      simp [hrlive, hself]
    rcases hfq : t'.rows.find? (fun q => decide (q.rid ∉ t'.deleted) &&
        rowMatches m q.fields) with _ | x1
    · exfalso
      have hs : (t'.rows.find? (fun q => decide (q.rid ∉ t'.deleted) &&
          rowMatches m q.fields)).isSome :=
        List.find?_isSome.2 ⟨r, hrt', hqr⟩
      rw [hfq] at hs
      simp at hs
    · have hx1p := List.find?_some hfq
      have hx1mem := List.mem_of_find?_eq_some hfq
      have hx1mem2 := hx1mem
      rw [hrows, mapOver] at hx1mem2
      obtain ⟨r0, hr0, hx1⟩ := List.mem_map.1 hx1mem2
      simp only [Bool.and_eq_true, decide_eq_true_eq] at hx1p
      have hx1rid : x1.rid = r0.rid := by
        rw [← hx1, overwriteRow_rid]
      have hr0live : r0.rid ∉ t.deleted := by
        rw [← hx1rid, ← hdel]
        exact hx1p.1
      have hffl : findFirstLiveMatching t' m = some x1.rid := by
        rw [findFirstLiveMatching, hfq]
        rfl
      rw [updateLoop] at hloop
      simp only [hffl, hx1rid] at hloop
      rcases hca : checkAssignments t' r0.rid asg with e | u
      · exfalso
        have hnd' : (t'.rows.map TableRow.rid).Nodup := by
          rw [hrows, mapOver_rids]
          exact hnd
        have hx1live : x1.rid ∉ t'.deleted := hx1p.1
        obtain ⟨pp, ss, hfl⟩ := findLive_mem hx1mem rfl hx1live hnd'
        rw [hx1rid] at hfl
        have hu : t'.update_row r0.rid asg = (.error e, t') := by
          rw [Table.update_row]
          simp only [hfl, hca]
        rw [hu] at hloop
        obtain ⟨n, hn⟩ := hok
        rw [hn] at hloop
        simp at hloop
      · cases u
        obtain ⟨hu1, hu2rows, hu2del⟩ := update_row_on_mapOver t asg hasgnd
          hnd S t' hrows hdel r0 hr0 hr0live hca
        have hu : t'.update_row r0.rid asg =
            (.ok true, (t'.update_row r0.rid asg).2) := by
          rw [← hu1]
        rw [hu] at hloop
        simp only at hloop
        by_cases hS0 : r0.rid ∈ S
        · -- re-targeted step: the table is unchanged up to `mapOver S`
          have hrows2 : (t'.update_row r0.rid asg).2.rows =
              mapOver asg S t.rows := by
            rw [hu2rows, mapOver_mem_cons asg S r0.rid hS0]
          obtain ⟨hres, S', hS'sub, hS'sup, htf, htfdel, hforall⟩ :=
            ih rs' S (t'.update_row r0.rid asg).2 (count + 1) res tf hloop
              hok hrows2 hu2del htail
              (fun r' hr' => hnotS r' (List.mem_cons_of_mem _ hr'))
              (by rw [List.map_cons, List.nodup_cons] at hrsnd; exact hrsnd.2)
          refine ⟨?_, S', ?_, hS'sup, htf, htfdel, ?_⟩
          · rw [hres, List.length_cons]
            exact congrArg Except.ok (by omega)
          · intro x hx
            rcases hS'sub x hx with h1 | h1
            · exact Or.inl h1
            · exact Or.inr (by rw [List.map_cons]; exact List.mem_cons_of_mem _ h1)
          · refine List.Forall₂.cons (Or.inr ?_) hforall
            have hx1f : x1.fields = overwrite asg r0.fields := by
              rw [← hx1, overwriteRow, if_pos hS0]
            exact retarget_fieldsEq asg m r0.fields
              (by rw [← hrf]; exact hcols r hrmem r0 hr0)
              (by rw [← hx1f]; exact hx1p.2)
        · -- the own row was found and overwritten
          have hx1id : x1 = r0 := by
            rw [← hx1, overwriteRow, if_neg hS0]
          have hrr0 : r = r0 := by
            apply hdist r hrmem r0 hr0 hrlive hr0live
            rw [hrf, ← hx1id]
            exact hx1p.2
          rw [List.map_cons, List.nodup_cons] at hrsnd
          obtain ⟨hres, S', hS'sub, hS'sup, htf, htfdel, hforall⟩ :=
            ih rs' (r0.rid :: S) (t'.update_row r0.rid asg).2 (count + 1)
              res tf hloop hok hu2rows hu2del htail
              (fun r' hr' hmem => by
                rcases List.mem_cons.1 hmem with h1 | h1
                · exact hrsnd.1 (by
                    rw [hrr0, ← h1]
                    exact List.mem_map_of_mem _ hr')
                · exact hnotS r' (List.mem_cons_of_mem _ hr') h1)
              hrsnd.2
          refine ⟨?_, S', ?_, ?_, htf, htfdel, ?_⟩
          · rw [hres, List.length_cons]
            exact congrArg Except.ok (by omega)
          · intro x hx
            rcases hS'sub x hx with h1 | h1
            · rcases List.mem_cons.1 h1 with h2 | h2
              · refine Or.inr ?_
                rw [List.map_cons, h2, hrr0]
                exact List.mem_cons_self _ _
              · exact Or.inl h2
            · exact Or.inr (by
                rw [List.map_cons]
                exact List.mem_cons_of_mem _ h1)
          · exact fun x hx => hS'sup x (List.mem_cons_of_mem _ hx)
          · refine List.Forall₂.cons (Or.inl ?_) hforall
            rw [hrr0]
            exact hS'sup r0.rid (List.mem_cons_self _ _)

theorem forall2_and {α β : Type} {R S : α → β → Prop} :
    ∀ {l1 : List α} {l2 : List β}, List.Forall₂ R l1 l2 →
      List.Forall₂ S l1 l2 →
      List.Forall₂ (fun a b => R a b ∧ S a b) l1 l2 := by
  intro l1
  induction l1 with
  | nil =>
    intro l2 h1 _
    cases h1
    exact List.Forall₂.nil
  | cons a l1 ih =>
    intro l2 h1 h2
    cases h1 with
    | cons hr hrest =>
      cases h2 with
      | cons hs hsrest => exact List.Forall₂.cons ⟨hr, hs⟩ (ih hrest hsrest)

/-- C7 (amended): on a well-formed table in which no two live rows are
    value-identical, a DELETE returns exactly the number of live rows
    satisfying the WHERE predicate at call time and removes exactly
    those rows (the subsequent scan is the complement, unchanged); a
    successful UPDATE returns the same exact count, deletes nothing,
    and afterwards every live row that satisfied the predicate reads
    `==`-equal to its assigned form while every other row is
    structurally untouched (equality of the updated rows is only up to
    Python `==`, not structural — see the counterexample). -/
theorem c7_counts_and_mutations (t : Table) (hwf : WF t)
    (w : Option Condition) (matching : List RowMap)
    (hm : get_matching_rows t w = .ok matching)
    (hdist : ∀ r1 ∈ t.rows, ∀ r2 ∈ t.rows, r1.rid ∉ t.deleted →
      r2.rid ∉ t.deleted → rowMatches r1.fields r2.fields = true → r1 = r2)
    (asg : List (String × Value)) (hasgnd : (asg.map Prod.fst).Nodup)
    (n : Nat) (tf : Table)
    (hupd : execute_update t asg w = (.ok n, tf)) :
    ((execute_delete t w).1 = .ok (t.scan.filter (satB w)).length ∧
     (execute_delete t w).2.scan = t.scan.filter (fun f => !satB w f)) ∧
    (n = (t.scan.filter (satB w)).length ∧
     tf.deleted = t.deleted ∧
     List.Forall₂ (fun f g =>
        if satB w f = true then fieldsEq g (overwrite asg f) else g = f)
       t.scan tf.scan) := by
  have hperm := matching_perm hwf hm
  have hkeys : ∀ r ∈ t.rows, (r.fields.map Prod.fst).Nodup := fun r hr => by
    rw [hwf.rowsComplete r hr]
    exact hwf.colsNodup
  have hcols : ∀ r1 ∈ t.rows, ∀ r2 ∈ t.rows,
      r1.fields.map Prod.fst = r2.fields.map Prod.fst := fun r1 h1 r2 h2 =>
    (hwf.rowsComplete r1 h1).trans (hwf.rowsComplete r2 h2).symm
  have hrowsnd : t.rows.Nodup := List.Nodup.of_map _ hwf.ridsNodup
  have hscannd : t.scan.Nodup := by
    rw [Table.scan]
    apply List.Nodup.map_on ?_ (hrowsnd.filter _)
    intro x hx y hy hxy
    rw [List.mem_filter] at hx hy
    apply hdist x hx.1 y hy.1 (by simpa using hx.2) (by simpa using hy.2)
    rw [hxy]
    exact rowMatches_self _ (hkeys y hy.1)
  have hmatchnd : matching.Nodup := hperm.nodup_iff.2 (hscannd.filter _)
  obtain ⟨rs, hcorr, hrsnd⟩ := exists_corr t hwf.ridsNodup matching
    (fun m hm' => by
      have h1 := hperm.mem_iff.1 hm'
      rw [List.mem_filter] at h1
      exact (mem_scan_iff t m).1 h1.1)
    hmatchnd
  have hridsat : ∀ r ∈ t.rows, r.rid ∉ t.deleted →
      (r.rid ∈ rs.map TableRow.rid ↔ satB w r.fields = true) := by
    intro r hr hlv
    constructor
    · intro hmem
      obtain ⟨r', hr', hre⟩ := List.mem_map.1 hmem
      obtain ⟨m', hm', hr'mem, hr'live, hr'f⟩ := forall2_mem_right hcorr hr'
      have hrr : r' = r := rows_rid_unique hwf.ridsNodup hr'mem hr hre
      have hmf := hperm.mem_iff.1 hm'
      rw [List.mem_filter] at hmf
      rw [← hr'f, hrr] at hmf
      exact hmf.2
    · intro hsat
      have hsm : r.fields ∈ t.scan.filter (satB w) := List.mem_filter.2
        ⟨(mem_scan_iff t r.fields).2 ⟨r, hr, hlv, rfl⟩, hsat⟩
      have hmem := hperm.mem_iff.2 hsm
      obtain ⟨r', hr', hr'mem, hr'live, hr'f⟩ := forall2_mem_left hcorr hmem
      have hrr : r' = r := by
        apply hdist r' hr'mem r hr hr'live hlv
        rw [hr'f]
        exact rowMatches_self _ (hkeys r hr)
      rw [← hrr]
      exact List.mem_map_of_mem _ hr'
  refine ⟨?_, ?_⟩
  · -- DELETE half
    have hcorr' : List.Forall₂ (fun m r => r ∈ t.rows ∧ r.fields = m)
        matching rs := hcorr.imp (fun a b h => ⟨h.1, h.2.2⟩)
    have hlive' : ∀ r ∈ rs, r.rid ∉ t.deleted := by
      intro r hr
      obtain ⟨m', _, _, h2, _⟩ := forall2_mem_right hcorr hr
      exact h2
    have dl := deleteLoop_spec t hdist hkeys hwf.ridsNodup matching rs t 0
      rfl (fun d hd => hd) hcorr' hlive' hrsnd
    have hED : execute_delete t w =
        (.ok (deleteLoop t matching 0).1, (deleteLoop t matching 0).2) := by
      rw [execute_delete]
      simp only [hm]
    refine ⟨?_, ?_⟩
    · rw [hED]
      show Except.ok (deleteLoop t matching 0).1 = _
      rw [dl.1, Nat.zero_add, hperm.length_eq]
    · rw [hED]
      show (deleteLoop t matching 0).2.scan = _
      rw [Table.scan, dl.2.1, Table.scan, List.filter_map, List.filter_filter]
      congr 1
      apply List.filter_congr
      intro r hr
      simp only [Function.comp]
      by_cases hl : r.rid ∈ t.deleted
      · have h1 : r.rid ∈ (deleteLoop t matching 0).2.deleted :=
          (dl.2.2 r.rid).2 (Or.inl hl)
        simp [h1, hl]
      · by_cases hs : satB w r.fields = true
        · have h1 : r.rid ∈ (deleteLoop t matching 0).2.deleted :=
            (dl.2.2 r.rid).2 (Or.inr ((hridsat r hr hl).2 hs))
          simp [h1, hs]
        · have hs' : satB w r.fields = false := Bool.eq_false_iff.2 hs
          have h1 : r.rid ∉ (deleteLoop t matching 0).2.deleted := by
            intro hc
            rcases (dl.2.2 r.rid).1 hc with h3 | h3
            · exact hl h3
            · exact hs ((hridsat r hr hl).1 h3)
          simp [h1, hl, hs']
  · -- UPDATE half
    have hloop : updateLoop asg t matching 0 = (.ok n, tf) := by
      rw [execute_update] at hupd
      simp only [hm] at hupd
      exact hupd
    obtain ⟨hres, S', hS'sub, _, htf, htfdel, hforall⟩ :=
      (updateLoop_spec t asg hasgnd hdist hkeys hcols hwf.ridsNodup
        matching rs [] t 0 (.ok n) tf hloop ⟨n, rfl⟩
        (mapOver_nil asg t.rows).symm rfl hcorr
        (fun r _ h => (List.not_mem_nil _ h))
        hrsnd).imp id (fun h => h)
    refine ⟨?_, htfdel, ?_⟩
    · simp only [Except.ok.injEq] at hres
      rw [hres, Nat.zero_add, hperm.length_eq]
    · have hcomb := forall2_and hcorr hforall
      have htfscan : tf.scan = (t.rows.filter
          (fun r => r.rid ∉ t.deleted)).map
          (fun r => (overwriteRow asg S' r).fields) := by
        rw [Table.scan, htf, htfdel, mapOver, List.filter_map, List.map_map]
        congr 1
        apply List.filter_congr
        intro r _
        simp [Function.comp, overwriteRow_rid]
      rw [htfscan, Table.scan]
      rw [List.forall₂_map_left_iff, List.forall₂_map_right_iff,
        List.forall₂_same]
      intro r hr
      rw [List.mem_filter] at hr
      obtain ⟨hrmem, hrlv⟩ := hr
      have hlv : r.rid ∉ t.deleted := by simpa using hrlv
      by_cases hS : r.rid ∈ S'
      · have hsat : satB w r.fields = true := by
          rcases hS'sub r.rid hS with h1 | h1
          · cases h1
          · exact (hridsat r hrmem hlv).1 h1
        rw [if_pos hsat, overwriteRow, if_pos hS]
        exact fieldsEq_refl _
      · have how : overwriteRow asg S' r = r := by
          rw [overwriteRow, if_neg hS]
        by_cases hs : satB w r.fields = true
        · rw [if_pos hs]
          have hsm : r.fields ∈ t.scan.filter (satB w) := List.mem_filter.2
            ⟨(mem_scan_iff t r.fields).2 ⟨r, hrmem, hlv, rfl⟩, hs⟩
          have hmem := hperm.mem_iff.2 hsm
          obtain ⟨r', hr', hrel⟩ := forall2_mem_left hcomb hmem
          obtain ⟨⟨hr'mem, hr'live, hr'f⟩, hdisj⟩ := hrel
          have hrr : r' = r := by
            apply hdist r' hr'mem r hrmem hr'live hlv
            rw [hr'f]
            exact rowMatches_self _ (hkeys r hrmem)
          rcases hdisj with h1 | h1
          · exfalso
            rw [hrr] at h1
            exact hS h1
          · rw [how]
            exact h1
        · rw [if_neg hs, how]

/-- Two FLOAT columns; rows `(5, 1)` and `(1.0, 1.0)`, which are not
    value-identical. -/
def wColsC7 : List Column :=
  [{ name := "a", dataType := .FLOAT }, { name := "b", dataType := .FLOAT }]

def wTC7 : Table :=
  (((tableOfOk (mkTable "t7" wColsC7)).insert_row
      [("a", .vInt 5), ("b", .vInt 1)]).2.insert_row
      [("a", .vFloat 1), ("b", .vFloat 1)]).2

def wCondC7 : Condition :=
  .comparison (.columnRef "b" none) .EQ (.literal (.vInt 1))

/-- C7 counterexample: with pairwise distinct live rows, the UPDATE
    `SET a = 1 WHERE b = 1` matches both rows and reports 2, but after
    the first row becomes `(1, 1)` the second match re-locates onto it
    (they are `==`-equal), so the second row is never written: the
    subsequent scan still shows `a = 1.0` (a float) in the second row,
    not the assigned integer `1` — the mutated set is not exactly the
    matching set. -/
theorem c7_update_counterexample :
    (∀ r1 ∈ wTC7.rows, ∀ r2 ∈ wTC7.rows, r1.rid ∉ wTC7.deleted →
      r2.rid ∉ wTC7.deleted →
      rowMatches r1.fields r2.fields = true → r1 = r2) ∧
    get_matching_rows wTC7 (some wCondC7) =
      .ok [[("a", .vInt 5), ("b", .vInt 1)],
           [("a", .vFloat 1), ("b", .vFloat 1)]] ∧
    (execute_update wTC7 [("a", .vInt 1)] (some wCondC7)).1 = .ok 2 ∧
    (execute_update wTC7 [("a", .vInt 1)] (some wCondC7)).2.scan =
      [[("a", .vInt 1), ("b", .vInt 1)],
       [("a", .vFloat 1), ("b", .vFloat 1)]] :=
  ⟨by decide, by decide, by decide, by decide⟩

theorem c7_counts_and_mutations_witness :
    ((execute_delete wTC1 (some wCondC1)).1 =
        .ok (wTC1.scan.filter (satB (some wCondC1))).length ∧
      (execute_delete wTC1 (some wCondC1)).2.scan =
        wTC1.scan.filter (fun f => !satB (some wCondC1) f)) ∧
    (1 = (wTC1.scan.filter (satB (some wCondC1))).length ∧
      (execute_update wTC1 [("v", .vStr "z")] (some wCondC1)).2.deleted =
        wTC1.deleted ∧
      List.Forall₂ (fun f g =>
          if satB (some wCondC1) f = true
          then fieldsEq g (overwrite [("v", .vStr "z")] f) else g = f)
        wTC1.scan
        (execute_update wTC1 [("v", .vStr "z")] (some wCondC1)).2.scan) :=
  c7_counts_and_mutations wTC1 wf_wTC1 (some wCondC1)
    [[("id", .vInt 1), ("v", .vStr "a")]] (by decide) (by decide)
    [("v", .vStr "z")] (by decide) 1
    (execute_update wTC1 [("v", .vStr "z")] (some wCondC1)).2
    (Prod.ext (by decide) rfl)

end RdbmsModel
